import Mathlib

/-!
Verification of the queuectl background job queue (src/queuectl).

Shallow embedding conventions:
* The SQLite `jobs` table is modelled as a `List Job`; every SQL statement of
  the source is translated to the corresponding pure list operation.  An
  `UPDATE ... WHERE id = ?` becomes a `List.map` touching exactly the rows
  whose `id` matches, an `INSERT` appends, `SELECT ... WHERE id` with
  `fetchone` becomes `List.find?`.
* Timestamps (ISO-8601 strings in the source, compared by SQLite
  lexicographically but always produced by `datetime.utcnow().isoformat()`,
  which is monotone in time) are modelled as abstract instants `Nat`.
* SQLite INTEGER counters (`attempts`, `max_attempts`, `id`) are modelled as
  `Nat`; they are only ever compared and incremented, and every value the
  claims exercise is non-negative.
* Python's `json.dumps` / `json.loads` (stdlib collaborators of
  `enqueue_job` and `run_worker`) are modelled concretely over a JSON
  document AST `Json` below; JSON floats are outside the model (the AST has
  integer numbers only), and lone-surrogate escape sequences, which Lean's
  `Char` cannot represent, are rejected by the modelled decoder.
* Handler execution (`handler(payload)` which either returns or raises) is a
  function `Json → Except String Unit`; the `String` carried by `.error`
  stands for the already-formatted message `f"{type(exc).__name__}: {exc}"`
  the worker builds from the exception.
-/

/-- Job status column of the `jobs` table (`pending | running | completed |
failed | dlq`; `failed` is declared in the schema comment but never stored). -/
inductive Status where
  | pending
  | running
  | completed
  | failed
  | dlq
deriving DecidableEq

/-- JSON document AST standing for the Python objects `json.dumps` accepts in
`enqueue_job`: `None`, booleans, integers, strings, lists and string-keyed
dicts (dict key order is insertion order, kept here as list order).  Floats
are outside the model. -/
inductive Json where
  | null
  | bool (b : Bool)
  | num (n : Int)
  | str (s : String)
  | arr (elems : List Json)
  | obj (members : List (String × Json))

/-- Row of the `jobs` table (db.py `init_db` schema). -/
structure Job where
  id : Nat
  type : String
  payload : String
  status : Status
  attempts : Nat
  max_attempts : Nat
  available_at : Nat
  last_error : Option String
  created_at : Nat
  updated_at : Nat
deriving DecidableEq

/-- Double-quote character, written by code point to keep literals simple. -/
def quoteChar : Char := Char.ofNat 34

/-- Backslash character. -/
def backslashChar : Char := Char.ofNat 92

/-- Opening-brace character. -/
def lbraceChar : Char := Char.ofNat 123

/-- Closing-brace character. -/
def rbraceChar : Char := Char.ofNat 125

/-- Lower-case hexadecimal digit, as emitted by Python `\uXXXX` escapes. -/
def hexDigitChar (n : Nat) : Char :=
  match n with
  | 0 => '0' | 1 => '1' | 2 => '2' | 3 => '3' | 4 => '4'
  | 5 => '5' | 6 => '6' | 7 => '7' | 8 => '8' | 9 => '9'
  | 10 => 'a' | 11 => 'b' | 12 => 'c' | 13 => 'd' | 14 => 'e'
  | _ => 'f'

/-- Six-character escape `\uXXXX` of a code unit below 0x10000. -/
def uEscape (n : Nat) : List Char :=
  [backslashChar, 'u', hexDigitChar (n / 4096 % 16), hexDigitChar (n / 256 % 16),
   hexDigitChar (n / 16 % 16), hexDigitChar (n % 16)]

/-- Escape of one character following CPython's
`py_encode_basestring_ascii` (default `ensure_ascii=True` in `json.dumps`):
quote and backslash get two-character escapes, printable ASCII is literal,
the five classic control characters get short escapes, every other character
below 0x10000 gets `\uXXXX`, and astral characters get a surrogate pair. -/
def escapeChar (c : Char) : List Char :=
  if c = quoteChar then [backslashChar, quoteChar]
  else if c = backslashChar then [backslashChar, backslashChar]
  else if 32 ≤ c.toNat ∧ c.toNat ≤ 126 then [c]
  else if c.toNat = 10 then [backslashChar, 'n']
  else if c.toNat = 13 then [backslashChar, 'r']
  else if c.toNat = 9 then [backslashChar, 't']
  else if c.toNat = 8 then [backslashChar, 'b']
  else if c.toNat = 12 then [backslashChar, 'f']
  else if c.toNat < 65536 then uEscape c.toNat
  else uEscape (55296 + (c.toNat - 65536) / 1024) ++ uEscape (56320 + (c.toNat - 65536) % 1024)

/-- Escape of a whole character list. -/
def escapeList : List Char → List Char
  | [] => []
  | c :: cs => escapeChar c ++ escapeList cs

/-- JSON string literal for `s`: quote, escaped body, quote. -/
def encodeString (s : String) : List Char :=
  quoteChar :: (escapeList s.data ++ [quoteChar])

/-- Decimal digit character. -/
def digitChar (n : Nat) : Char :=
  match n with
  | 0 => '0' | 1 => '1' | 2 => '2' | 3 => '3' | 4 => '4'
  | 5 => '5' | 6 => '6' | 7 => '7' | 8 => '8' | _ => '9'

/-- Decimal digits with explicit fuel; one fuel unit per division step. -/
def natDigitsAux : Nat → Nat → List Char
  | 0, _ => []
  | fuel + 1, n =>
    if n < 10 then [digitChar n]
    else natDigitsAux fuel (n / 10) ++ [digitChar (n % 10)]

/-- Decimal digits of a natural number, most significant first; the fuel
`n + 1` is more than the number of digits. -/
def natDigits (n : Nat) : List Char := natDigitsAux (n + 1) n

/-- Decimal rendering of an integer, as `repr(int)` in Python. -/
def intChars (n : Int) : List Char :=
  if n < 0 then '-' :: natDigits n.natAbs else natDigits n.toNat

mutual

/-- Characters `json.dumps` emits for a document, with the default
separators `", "` and `": "`. -/
def dumpsVal : Json → List Char
  | .null => "null".data
  | .bool true => "true".data
  | .bool false => "false".data
  | .num n => intChars n
  | .str s => encodeString s
  | .arr [] => ['[', ']']
  | .arr (x :: rest) => '[' :: (dumpsVal x ++ dumpsArrTail rest)
  | .obj [] => [lbraceChar, rbraceChar]
  | .obj ((k, v) :: rest) =>
      lbraceChar :: (encodeString k ++ ':' :: ' ' :: (dumpsVal v ++ dumpsObjTail rest))
termination_by structural v => v

/-- Remaining array elements, each preceded by `", "`, then `]`. -/
def dumpsArrTail : List Json → List Char
  | [] => [']']
  | x :: rest => ',' :: ' ' :: (dumpsVal x ++ dumpsArrTail rest)
termination_by structural xs => xs

/-- Remaining object members, each preceded by `", "`, then the brace. -/
def dumpsObjTail : List (String × Json) → List Char
  | [] => [rbraceChar]
  | (k, v) :: rest => ',' :: ' ' :: (encodeString k ++ ':' :: ' ' :: (dumpsVal v ++ dumpsObjTail rest))
termination_by structural kvs => kvs

end

/-- Model of Python `json.dumps(payload)` as called in `enqueue_job`. -/
def Json.dumps (v : Json) : String := String.mk (dumpsVal v)

/-- JSON whitespace (space, tab, newline, carriage return). -/
def isWsChar (c : Char) : Bool :=
  c.toNat = 32 || c.toNat = 9 || c.toNat = 10 || c.toNat = 13

/-- Drop leading JSON whitespace. -/
def skipWs : List Char → List Char
  | [] => []
  | c :: cs => if isWsChar c then skipWs cs else c :: cs

/-- Value of one hexadecimal digit character. -/
def hexVal (c : Char) : Option Nat :=
  if 48 ≤ c.toNat ∧ c.toNat ≤ 57 then some (c.toNat - 48)
  else if 97 ≤ c.toNat ∧ c.toNat ≤ 102 then some (c.toNat - 87)
  else if 65 ≤ c.toNat ∧ c.toNat ≤ 70 then some (c.toNat - 55)
  else none

/-- Four hexadecimal digits after a `\u` escape. -/
def parse4Hex : List Char → Option (Nat × List Char)
  | a :: b :: c :: d :: rest =>
    match hexVal a, hexVal b, hexVal c, hexVal d with
    | some x, some y, some z, some w => some (4096 * x + 256 * y + 16 * z + w, rest)
    | _, _, _, _ => none
  | _ => none

/-- Prefix a character onto a pending string-body parse. -/
def consStr (c : Char) : Option (List Char × List Char) → Option (List Char × List Char)
  | none => none
  | some (s, r) => some (c :: s, r)

/-- Body of a JSON string literal after the opening quote, following
CPython's `scanstring` (strict mode): a closing quote ends the string, a
backslash introduces one of the eight short escapes or `\uXXXX` (with
surrogate-pair combination), raw control characters below 0x20 are
rejected.  A lone surrogate escape, which Python would keep as a surrogate
code point, has no `Char` representation and is rejected by the model. -/
def parseStrBody : Nat → List Char → Option (List Char × List Char)
  | 0, _ => none
  | fuel + 1, cs =>
    match cs with
    | [] => none
    | c :: rest =>
      if c = quoteChar then some ([], rest)
      else if c = backslashChar then
        match rest with
        | [] => none
        | e :: rest2 =>
          if e = quoteChar then consStr quoteChar (parseStrBody fuel rest2)
          else if e = backslashChar then consStr backslashChar (parseStrBody fuel rest2)
          else if e = '/' then consStr '/' (parseStrBody fuel rest2)
          else if e = 'b' then consStr (Char.ofNat 8) (parseStrBody fuel rest2)
          else if e = 'f' then consStr (Char.ofNat 12) (parseStrBody fuel rest2)
          else if e = 'n' then consStr (Char.ofNat 10) (parseStrBody fuel rest2)
          else if e = 'r' then consStr (Char.ofNat 13) (parseStrBody fuel rest2)
          else if e = 't' then consStr (Char.ofNat 9) (parseStrBody fuel rest2)
          else if e = 'u' then
            match parse4Hex rest2 with
            | none => none
            | some (n, rest3) =>
              if 55296 ≤ n ∧ n ≤ 56319 then
                match rest3 with
                | b1 :: u1 :: rest4 =>
                  if b1 = backslashChar ∧ u1 = 'u' then
                    match parse4Hex rest4 with
                    | none => none
                    | some (m, rest5) =>
                      if 56320 ≤ m ∧ m ≤ 57343 then
                        consStr (Char.ofNat (65536 + (n - 55296) * 1024 + (m - 56320)))
                          (parseStrBody fuel rest5)
                      else none
                  else none
                | _ => none
              else if 56320 ≤ n ∧ n ≤ 57343 then none
              else consStr (Char.ofNat n) (parseStrBody fuel rest3)
          else none
      else if 32 ≤ c.toNat then consStr c (parseStrBody fuel rest)
      else none

/-- Decimal digit test. -/
def isDigitChar (c : Char) : Bool := 48 ≤ c.toNat && c.toNat ≤ 57

/-- Longest digit prefix and the remainder. -/
def takeDigits : List Char → List Char × List Char
  | [] => ([], [])
  | c :: cs =>
    if isDigitChar c then
      let p := takeDigits cs
      (c :: p.1, p.2)
    else ([], c :: cs)

/-- Value of a digit string, accumulator style. -/
def digitsToNat (acc : Nat) : List Char → Nat
  | [] => acc
  | c :: cs => digitsToNat (10 * acc + (c.toNat - 48)) cs

/-- Continuation characters that would make the literal a float. -/
def numBreak (cs : List Char) : Bool :=
  match cs with
  | c :: _ => c = '.' || c = 'e' || c = 'E'
  | [] => false

/-- Integer literal: optional minus then digits.  A fraction or exponent
part would produce a Python float, which is outside the document model, so
the modelled decoder rejects it. -/
def parseNumber (cs : List Char) : Option (Int × List Char) :=
  match cs with
  | [] => none
  | c :: rest =>
    if c = '-' then
      match takeDigits rest with
      | ([], _) => none
      | (d :: ds, rest2) =>
        if numBreak rest2 then none
        else some (-(digitsToNat 0 (d :: ds) : Int), rest2)
    else
      match takeDigits (c :: rest) with
      | ([], _) => none
      | (d :: ds, rest2) =>
        if numBreak rest2 then none
        else some ((digitsToNat 0 (d :: ds) : Int), rest2)

/-- Insertion of one key into an association list with Python dict
semantics: an existing key keeps its position and takes the new value, a
new key goes to the end. -/
def insertKV (kvs : List (String × Json)) (k : String) (v : Json) : List (String × Json) :=
  match kvs with
  | [] => [(k, v)]
  | (k0, v0) :: rest => if k0 = k then (k0, v) :: rest else (k0, v0) :: insertKV rest k v

/-- Fold of parsed object members into a dict, later duplicates winning. -/
def objFold (kvs : List (String × Json)) : List (String × Json) :=
  kvs.foldl (fun acc kv => insertKV acc kv.1 kv.2) []

mutual

/-- JSON value parser following CPython's pure-Python scanner: skip
whitespace, dispatch on the first character.  The fuel bounds recursion
depth; `Json.loads` supplies fuel larger than any parse can consume. -/
def parseVal : Nat → List Char → Option (Json × List Char)
  | 0, _ => none
  | fuel + 1, cs =>
    match skipWs cs with
    | [] => none
    | c :: rest =>
      if c = 'n' then
        match rest with
        | 'u' :: 'l' :: 'l' :: r => some (.null, r)
        | _ => none
      else if c = 't' then
        match rest with
        | 'r' :: 'u' :: 'e' :: r => some (.bool true, r)
        | _ => none
      else if c = 'f' then
        match rest with
        | 'a' :: 'l' :: 's' :: 'e' :: r => some (.bool false, r)
        | _ => none
      else if c = quoteChar then
        match parseStrBody (rest.length + 1) rest with
        | some (body, r) => some (.str (String.mk body), r)
        | none => none
      else if c = '[' then
        match skipWs rest with
        | [] => none
        | c2 :: r0 =>
          if c2 = ']' then some (.arr [], r0)
          else
            match parseVal fuel (c2 :: r0) with
            | some (x, r) =>
              match parseArrTail fuel r with
              | some (xs, r2) => some (.arr (x :: xs), r2)
              | none => none
            | none => none
      else if c = lbraceChar then
        match skipWs rest with
        | c2 :: r1 =>
          if c2 = rbraceChar then some (.obj [], r1)
          else if c2 = quoteChar then
            match parseStrBody (r1.length + 1) r1 with
            | some (key, r2) =>
              match skipWs r2 with
              | [] => none
              | c3 :: r3 =>
                if c3 = ':' then
                  match parseVal fuel r3 with
                  | some (v, r4) =>
                    match parseObjTail fuel r4 with
                    | some (kvs, r5) => some (.obj (objFold ((String.mk key, v) :: kvs)), r5)
                    | none => none
                  | none => none
                else none
            | none => none
          else none
        | [] => none
      else
        match parseNumber (c :: rest) with
        | some (n, r) => some (.num n, r)
        | none => none
termination_by structural fuel _ => fuel

/-- Array continuation: `]` ends it, `,` introduces the next element. -/
def parseArrTail : Nat → List Char → Option (List Json × List Char)
  | 0, _ => none
  | fuel + 1, cs =>
    match skipWs cs with
    | [] => none
    | c :: r =>
      if c = ']' then some ([], r)
      else if c = ',' then
        match parseVal fuel r with
        | some (x, r2) =>
          match parseArrTail fuel r2 with
          | some (xs, r3) => some (x :: xs, r3)
          | none => none
        | none => none
      else none
termination_by structural fuel _ => fuel

/-- Object continuation: the closing brace ends it, `,` introduces the
next `"key": value` member. -/
def parseObjTail : Nat → List Char → Option (List (String × Json) × List Char)
  | 0, _ => none
  | fuel + 1, cs =>
    match skipWs cs with
    | c :: r =>
      if c = rbraceChar then some ([], r)
      else if c = ',' then
        match skipWs r with
        | c2 :: r1 =>
          if c2 = quoteChar then
            match parseStrBody (r1.length + 1) r1 with
            | some (key, r2) =>
              match skipWs r2 with
              | [] => none
              | c3 :: r3 =>
                if c3 = ':' then
                  match parseVal fuel r3 with
                  | some (v, r4) =>
                    match parseObjTail fuel r4 with
                    | some (kvs, r5) => some ((String.mk key, v) :: kvs, r5)
                    | none => none
                  | none => none
                else none
            | none => none
          else none
        | [] => none
      else none
    | [] => none
termination_by structural fuel _ => fuel

end

/-- Model of Python `json.loads(payload_str)` as called in `run_worker`:
one JSON document, surrounding whitespace allowed, nothing else. -/
def Json.loads (s : String) : Option Json :=
  match parseVal (s.data.length + 1) s.data with
  | some (v, rest) => if (skipWs rest).isEmpty then some v else none
  | none => none

/-- Readiness test of the claim query `status = 'pending' AND available_at <= now`. -/
def isReady (now : Nat) (j : Job) : Bool :=
  j.status = Status.pending && j.available_at ≤ now

/-- Row with the smallest `id`, as `ORDER BY id LIMIT 1` returns it. -/
def minById : List Job → Option Job
  | [] => none
  | j :: rest =>
    match minById rest with
    | none => some j
    | some m => if j.id ≤ m.id then some j else some m

/-- Phase one of `get_next_pending_job` (job_store.py lines 72-84): the
`SELECT` picking the oldest ready pending row. -/
def claimSelect (now : Nat) (db : List Job) : Option Job :=
  minById (db.filter (isReady now))

/-- Phase two of `get_next_pending_job` (job_store.py lines 88-91): the
`UPDATE` marking the selected row as running. -/
def claimUpdate (id now : Nat) (db : List Job) : List Job :=
  db.map fun r => if r.id = id then { r with status := Status.running, updated_at := now } else r

/-- Model of `get_next_pending_job`: select the oldest ready pending job,
mark it running, return the pre-transition snapshot (the source returns
`dict(row)` taken before the `UPDATE`). -/
def get_next_pending_job (now : Nat) (db : List Job) : Option Job × List Job :=
  match claimSelect now db with
  | none => (none, db)
  | some j => (some j, claimUpdate j.id now db)

/-- Model of `mark_job_completed` (job_store.py lines 96-107). -/
def mark_job_completed (id now : Nat) (db : List Job) : List Job :=
  db.map fun r =>
    if r.id = id then { r with status := Status.completed, updated_at := now } else r

/-- Model of `move_job_to_dlq` (job_store.py lines 110-122). -/
def move_job_to_dlq (id : Nat) (error_message : String) (now : Nat) (db : List Job) :
    List Job :=
  db.map fun r =>
    if r.id = id then
      { r with status := Status.dlq, last_error := some error_message, updated_at := now }
    else r

/-- Model of `handle_job_failure` (job_store.py lines 125-175): `job` is the
snapshot dict the worker passes, whose `id`, `attempts` and `max_attempts`
fields drive the update. -/
def handle_job_failure (job : Job) (error_message : String) (base_delay now : Nat)
    (db : List Job) : List Job :=
  let new_attempts := job.attempts + 1
  if job.max_attempts ≤ new_attempts then
    db.map fun r =>
      if r.id = job.id then
        { r with status := Status.dlq, attempts := new_attempts,
                 last_error := some error_message, updated_at := now }
      else r
  else
    let delay_seconds := base_delay * 2 ^ (new_attempts - 1)
    db.map fun r =>
      if r.id = job.id then
        { r with status := Status.pending, attempts := new_attempts,
                 available_at := now + delay_seconds,
                 last_error := some error_message, updated_at := now }
      else r

/-- Errors `retry_dlq_job` raises (both `ValueError` in the source, with
distinct messages: job not found, and job not in DLQ). -/
inductive RetryErr where
  | notFound
  | invalidState (st : Status)
deriving DecidableEq

/-- Model of `retry_dlq_job` (job_store.py lines 178-201): `get_job` is the
`SELECT ... WHERE id` with `fetchone`, modelled by `List.find?`; the errors
are raised before any `UPDATE` runs. -/
def retry_dlq_job (id now : Nat) (db : List Job) : Except RetryErr (List Job) :=
  match db.find? (fun j => j.id = id) with
  | none => Except.error RetryErr.notFound
  | some job =>
    if job.status = Status.dlq then
      Except.ok (db.map fun r =>
        if r.id = id then
          { r with status := Status.pending, attempts := 0, available_at := now,
                   last_error := none, updated_at := now }
        else r)
    else Except.error (RetryErr.invalidState job.status)

/-- Handler registry `handlers.HANDLERS`: a pluggable map from the job-type
string to the handler capability. -/
def Registry : Type := String → Option (Json → Except String Unit)

/-- Outcome of one worker iteration, recording which branch of
`run_worker`'s body ran and the claimed snapshot it ran on. -/
inductive StepResult where
  | idle
  | rejectedJson (j : Job)
  | rejectedType (j : Job)
  | failed (j : Job) (msg : String)
  | completedJob (j : Job)
deriving DecidableEq

/-- Claimed snapshot of a worker-iteration outcome, `none` when the poll
found no ready job. -/
def StepResult.claimed : StepResult → Option Job
  | .idle => none
  | .rejectedJson j => some j
  | .rejectedType j => some j
  | .failed j _ => some j
  | .completedJob j => some j

/-- One iteration of `run_worker`'s loop body (worker.py lines 34-79):
claim, decode the payload, look up the handler, execute it, and persist
exactly one outcome.  A `time.sleep` changes no state, so the idle branch
returns the store unchanged. -/
def workerStep (H : Registry) (base_delay now : Nat) (db : List Job) :
    StepResult × List Job :=
  match get_next_pending_job now db with
  | (none, db1) => (StepResult.idle, db1)
  | (some job, db1) =>
    match Json.loads job.payload with
    | none => (StepResult.rejectedJson job,
               move_job_to_dlq job.id "Invalid JSON payload stored" now db1)
    | some payload =>
      match H job.type with
      | none => (StepResult.rejectedType job,
                 move_job_to_dlq job.id ("Unknown job type: " ++ job.type) now db1)
      | some handler =>
        match handler payload with
        | Except.error msg => (StepResult.failed job msg,
                               handle_job_failure job msg base_delay now db1)
        | Except.ok _ => (StepResult.completedJob job, mark_job_completed job.id now db1)

/-- Whole queue state: the `jobs` table plus the next `AUTOINCREMENT` id. -/
structure QState where
  jobs : List Job
  nextId : Nat
deriving DecidableEq

/-- Empty database right after `init_db`; SQLite AUTOINCREMENT starts at 1. -/
def initState : QState := { jobs := [], nextId := 1 }

/-- Model of `enqueue_job` (job_store.py lines 8-37): insert a pending row
with `attempts = 0`, `last_error = NULL`, `available_at` defaulting to now,
and return `cur.lastrowid`. -/
def enqueue_job (job_type : String) (payload : Json) (max_attempts : Nat)
    (available_at : Option Nat) (now : Nat) (s : QState) : Nat × QState :=
  let aAt := available_at.getD now
  let j : Job :=
    { id := s.nextId, type := job_type, payload := Json.dumps payload,
      status := Status.pending, attempts := 0, max_attempts := max_attempts,
      available_at := aAt, last_error := none, created_at := now, updated_at := now }
  (s.nextId, { jobs := s.jobs ++ [j], nextId := s.nextId + 1 })

/-- Operations through which the system mutates the store: the two CLI
entry points `enqueue` and `dlq retry`, and one worker-loop iteration. -/
inductive SysOp where
  | enqueue (job_type : String) (payload : Json) (max_attempts : Nat)
      (available_at : Option Nat)
  | retryDlq (id : Nat)
  | worker (H : Registry) (base_delay : Nat)

/-- Application of one operation at instant `now`.  A failing
`retry_dlq_job` raises before its `UPDATE`, so the state is unchanged (the
CLI catches the `ValueError` and exits). -/
def applyOp (op : SysOp) (now : Nat) (s : QState) : QState :=
  match op with
  | .enqueue ty p m a => (enqueue_job ty p m a now s).2
  | .retryDlq id =>
    match retry_dlq_job id now s.jobs with
    | Except.ok db2 => { s with jobs := db2 }
    | Except.error _ => s
  | .worker H b => { s with jobs := (workerStep H b now s.jobs).2 }

/-- Fold of a trace of timestamped operations from a start state. -/
def applyOps : List (SysOp × Nat) → QState → QState
  | [], s => s
  | (op, now) :: rest, s => applyOps rest (applyOp op now s)

/-- Key uniqueness of one object level; a Python dict cannot hold the same
key twice, so documents coming out of `enqueue_job` satisfy it. -/
def nodupKeys : List (String × Json) → Bool
  | [] => true
  | (k, _) :: kvs => !(kvs.any fun kv => kv.1 = k) && nodupKeys kvs

mutual

/-- Well-formedness of a document as a Python object: object keys are
unique at every level. -/
def wfVal : Json → Bool
  | .null | .bool _ | .num _ | .str _ => true
  | .arr xs => wfArr xs
  | .obj kvs => nodupKeys kvs && wfMems kvs
termination_by structural v => v

/-- Well-formedness of array elements. -/
def wfArr : List Json → Bool
  | [] => true
  | x :: xs => wfVal x && wfArr xs
termination_by structural xs => xs

/-- Well-formedness of object member values. -/
def wfMems : List (String × Json) → Bool
  | [] => true
  | (_, v) :: kvs => wfVal v && wfMems kvs
termination_by structural kvs => kvs

end

mutual

/-- Fuel a `parseVal` call needs on the printed form of `v`. -/
def costV : Json → Nat
  | .null | .bool _ | .num _ | .str _ => 1
  | .arr [] => 1
  | .arr (x :: xs) => costV x + costA xs + 1
  | .obj [] => 1
  | .obj ((_, v) :: kvs) => costV v + costO kvs + 1
termination_by structural v => v

/-- Fuel a `parseArrTail` call needs on a printed array tail. -/
def costA : List Json → Nat
  | [] => 1
  | x :: xs => costV x + costA xs + 1
termination_by structural xs => xs

/-- Fuel a `parseObjTail` call needs on a printed object tail. -/
def costO : List (String × Json) → Nat
  | [] => 1
  | (_, v) :: kvs => costV v + costO kvs + 1
termination_by structural kvs => kvs

end

/-- Boundary condition after a printed number: the next character must not
extend the literal.  Every context a printed value appears in (end of
input, `", "`, `]`, closing brace) satisfies it. -/
def numBoundary (cs : List Char) : Bool :=
  match cs with
  | [] => true
  | c :: _ => !(isDigitChar c || c = '.' || c = 'e' || c = 'E')

/-- Model of the polling loop of `run_worker` for a finite trace of poll
instants: one `workerStep` per instant.  Totality of this function renders
the contract that no handler outcome can terminate the loop. -/
def runWorkerN (H : Registry) (b : Nat) : List Nat → List Job → List Job
  | [], db => db
  | now :: rest, db => runWorkerN H b rest (workerStep H b now db).2

def c1Snapshot : Job :=
  { id := 1, type := "t", payload := "null", status := Status.running, attempts := 0,
    max_attempts := 3, available_at := 0, last_error := none, created_at := 0,
    updated_at := 0 }

def c1Updated : Job :=
  { id := 1, type := "t", payload := "null", status := Status.pending, attempts := 1,
    max_attempts := 3, available_at := 105, last_error := some "boom", created_at := 0,
    updated_at := 100 }

def c6JobA : Job :=
  { id := 2, type := "t", payload := "null", status := Status.pending, attempts := 0,
    max_attempts := 3, available_at := 0, last_error := none, created_at := 0,
    updated_at := 0 }

def c6JobB : Job :=
  { id := 1, type := "t", payload := "null", status := Status.completed, attempts := 0,
    max_attempts := 3, available_at := 0, last_error := none, created_at := 0,
    updated_at := 0 }

/-- Frame property of one row under a by-id update targeting `target`: the
identity fields survive, and rows with another id are untouched. -/
def framePreserved (target : Nat) (old new : Job) : Prop :=
  new.id = old.id ∧ new.type = old.type ∧ new.payload = old.payload ∧
  new.max_attempts = old.max_attempts ∧ new.created_at = old.created_at ∧
  (old.id ≠ target → new = old)

/-- Frame property of a whole store update: same row count, and every
position satisfies `framePreserved`. -/
def frameClaim (db2 db : List Job) (target : Nat) : Prop :=
  db2.length = db.length ∧
  ∀ (i : Nat) (old : Job), db[i]? = some old →
    ∃ new, db2[i]? = some new ∧ framePreserved target old new

def c10Job : Job :=
  { id := 4, type := "t", payload := "null", status := Status.running, attempts := 1,
    max_attempts := 3, available_at := 0, last_error := none, created_at := 9,
    updated_at := 0 }

def c10Other : Job :=
  { id := 5, type := "u", payload := "1", status := Status.pending, attempts := 0,
    max_attempts := 2, available_at := 7, last_error := none, created_at := 8,
    updated_at := 0 }

def c4Dlq : Job :=
  { id := 3, type := "t", payload := "null", status := Status.dlq, attempts := 3,
    max_attempts := 3, available_at := 0, last_error := some "old", created_at := 0,
    updated_at := 0 }

def c3Bad : Job :=
  { id := 7, type := "t", payload := "oops", status := Status.pending, attempts := 2,
    max_attempts := 5, available_at := 0, last_error := none, created_at := 0,
    updated_at := 0 }

def c3H : Registry := fun _ => none

def c7Job : Job :=
  { id := 8, type := "t", payload := "null", status := Status.pending, attempts := 0,
    max_attempts := 3, available_at := 0, last_error := none, created_at := 0,
    updated_at := 0 }

def c7H : Registry := fun _ => some (fun _ => Except.error "RuntimeError: boom")

def c9Doc : Json := Json.obj [("a", Json.num 1)]

def c9Job : Job :=
  { id := 9, type := "t", payload := Json.dumps c9Doc, status := Status.pending,
    attempts := 0, max_attempts := 3, available_at := 0, last_error := none,
    created_at := 0, updated_at := 0 }

def c9H : Registry := fun _ => some (fun _ => Except.ok ())

/-- C2 invariant: every pending or running row keeps `attempts` strictly
below its `max_attempts` ceiling. -/
def InvJobs (db : List Job) : Prop :=
  ∀ j ∈ db, (j.status = Status.pending ∨ j.status = Status.running) →
    j.attempts < j.max_attempts

/-- Strengthened inductive invariant: ids are unique and below the next
AUTOINCREMENT value, ceilings are positive, and the C2 bound holds. -/
def StrongInv (s : QState) : Prop :=
  (s.jobs.map Job.id).Nodup ∧
  ∀ j ∈ s.jobs, j.id < s.nextId ∧ 1 ≤ j.max_attempts ∧
    ((j.status = Status.pending ∨ j.status = Status.running) →
      j.attempts < j.max_attempts)

/-- Ceiling positivity of one operation (`1 ≤ max_attempts` at enqueue). -/
def opPositive : SysOp → Bool
  | SysOp.enqueue _ _ m _ => 1 ≤ m
  | _ => true

/-- C2 as stated is refutable: `enqueue_job` accepts `max_attempts = 0`,
and the enqueued job is immediately a pending row with
`attempts = 0 = max_attempts`, violating `attempts < max_attempts`. -/
def c2BadJob : Job :=
  { id := 1, type := "t", payload := "null", status := Status.pending, attempts := 0,
    max_attempts := 0, available_at := 0, last_error := none, created_at := 0,
    updated_at := 0 }

def c2H : Registry := fun _ => some (fun _ => Except.error "ValueError: x")

def c2Ops : List (SysOp × Nat) :=
  [(SysOp.enqueue "t" Json.null 3 none, 0), (SysOp.worker c2H 5, 1)]

def c5Job : Job :=
  { id := 11, type := "t", payload := "null", status := Status.pending, attempts := 2,
    max_attempts := 3, available_at := 0, last_error := none, created_at := 0,
    updated_at := 0 }

def c5H : Registry := fun _ => some (fun _ => Except.error "E: x")

def c5Row : Job :=
  { id := 11, type := "t", payload := "null", status := Status.dlq, attempts := 3,
    max_attempts := 3, available_at := 0, last_error := some "E: x", created_at := 0,
    updated_at := 9 }

def c5xH : Registry := fun _ => some (fun _ => Except.error "E")

/-- Interleaved execution of two concurrent `get_next_pending_job` calls
under the schedule select(A); select(B); update(A); update(B).  Each caller
runs its `SELECT` (phase `claimSelect`) and its `UPDATE` (phase
`claimUpdate`) as separate atomic statements: Python's `sqlite3` module
opens an implicit transaction only for data-modification statements, so the
`SELECT` of `get_next_pending_job` runs in autocommit mode and no lock is
held between a caller's read and its write, which admits this schedule.
Each caller returns the snapshot its own `SELECT` produced, exactly as the
source returns `dict(row)` taken before the `UPDATE`. -/
def interleavedDoubleClaim (now : Nat) (db : List Job) :
    Option Job × Option Job × List Job :=
  let rA := claimSelect now db
  let rB := claimSelect now db
  let db1 := match rA with
    | some j => claimUpdate j.id now db
    | none => db
  let db2 := match rB with
    | some j => claimUpdate j.id now db1
    | none => db1
  (rA, rB, db2)

def c8Job : Job :=
  { id := 1, type := "t", payload := "null", status := Status.pending, attempts := 0,
    max_attempts := 3, available_at := 0, last_error := none, created_at := 0,
    updated_at := 0 }

theorem char_ne_of_toNat_ne {c d : Char} (h : c.toNat ≠ d.toNat) : c ≠ d := by
  intro hc
  exact h (hc ▸ rfl)

theorem char_valid_range (c : Char) :
    c.toNat < 55296 ∨ (57343 < c.toNat ∧ c.toNat < 1114112) := by
  have h := c.valid
  unfold UInt32.isValidChar Nat.isValidChar at h
  rcases h with h | ⟨h1, h2⟩
  · exact Or.inl h
  · exact Or.inr ⟨h1, h2⟩

theorem skipWs_not_ws {c : Char} (h : isWsChar c = false) (cs : List Char) :
    skipWs (c :: cs) = c :: cs := by
  simp [skipWs, h]

theorem skipWs_ws {c : Char} (h : isWsChar c = true) (cs : List Char) :
    skipWs (c :: cs) = skipWs cs := by
  simp [skipWs, h]

theorem digitChar_toNat {n : Nat} (h : n < 10) : (digitChar n).toNat = 48 + n := by
  interval_cases n <;> rfl

theorem isDigit_digitChar {n : Nat} (h : n < 10) : isDigitChar (digitChar n) = true := by
  simp [isDigitChar, digitChar_toNat h]
  omega

theorem digitsToNat_append (xs ys : List Char) :
    ∀ acc, digitsToNat acc (xs ++ ys) = digitsToNat (digitsToNat acc xs) ys := by
  induction xs with
  | nil => intro acc; rfl
  | cons c cs ih =>
    intro acc
    rw [List.cons_append]
    show digitsToNat (10 * acc + (c.toNat - 48)) (cs ++ ys) = _
    rw [ih]
    rfl

theorem natDigitsAux_spec :
    ∀ fuel n, n < fuel →
      natDigitsAux fuel n ≠ [] ∧ (∀ c ∈ natDigitsAux fuel n, isDigitChar c = true) ∧
      ∀ acc, digitsToNat acc (natDigitsAux fuel n) =
        acc * 10 ^ (natDigitsAux fuel n).length + n := by
  intro fuel
  induction fuel with
  | zero => intro n h; omega
  | succ fuel ih =>
    intro n h
    have hunf : natDigitsAux (fuel + 1) n =
        if n < 10 then [digitChar n]
        else natDigitsAux fuel (n / 10) ++ [digitChar (n % 10)] := rfl
    by_cases h10 : n < 10
    · rw [hunf, if_pos h10]
      refine ⟨by simp, ?_, ?_⟩
      · intro c hc
        rw [List.mem_singleton] at hc
        subst hc
        exact isDigit_digitChar h10
      · intro acc
        show digitsToNat (10 * acc + ((digitChar n).toNat - 48)) [] = _
        rw [digitChar_toNat h10]
        show 10 * acc + (48 + n - 48) = acc * 10 ^ ([digitChar n].length) + n
        simp
        omega
    · have hd : n / 10 < fuel := by
        have := Nat.div_lt_self (by omega : 0 < n) (by omega : 1 < 10)
        omega
      obtain ⟨hne, hdig, hval⟩ := ih (n / 10) hd
      rw [hunf, if_neg h10]
      refine ⟨by simp [hne], ?_, ?_⟩
      · intro c hc
        rcases List.mem_append.mp hc with hc | hc
        · exact hdig c hc
        · rw [List.mem_singleton] at hc
          subst hc
          exact isDigit_digitChar (by omega)
      · intro acc
        rw [digitsToNat_append, hval acc]
        have hlast : ∀ a : Nat, digitsToNat a [digitChar (n % 10)] = 10 * a + n % 10 := by
          intro a
          show 10 * a + ((digitChar (n % 10)).toNat - 48) = _
          rw [digitChar_toNat (show n % 10 < 10 by omega)]
          omega
        rw [hlast, List.length_append, List.length_singleton, pow_succ]
        have heq : acc * (10 ^ (natDigitsAux fuel (n / 10)).length * 10) =
            (acc * 10 ^ (natDigitsAux fuel (n / 10)).length) * 10 := by ring
        rw [heq]
        omega

theorem boundary_head_not_digit {c : Char} {t : List Char}
    (h : numBoundary (c :: t) = true) : isDigitChar c = false := by
  simp [numBoundary] at h
  exact h.1.1.1

theorem numBreak_of_boundary {rest : List Char} (h : numBoundary rest = true) :
    numBreak rest = false := by
  cases rest with
  | nil => rfl
  | cons c t =>
    simp [numBoundary] at h
    obtain ⟨⟨⟨h1, h2⟩, h3⟩, h4⟩ := h
    simp [numBreak, h2, h3, h4]

theorem takeDigits_append (ds rest : List Char)
    (hds : ∀ c ∈ ds, isDigitChar c = true)
    (hrest : numBoundary rest = true) :
    takeDigits (ds ++ rest) = (ds, rest) := by
  induction ds with
  | nil =>
    cases rest with
    | nil => rfl
    | cons c t =>
      have hunf : takeDigits (c :: t) =
          if isDigitChar c = true then (c :: (takeDigits t).1, (takeDigits t).2)
          else ([], c :: t) := rfl
      rw [List.nil_append, hunf, boundary_head_not_digit hrest]
      simp
  | cons c cs ih =>
    have hc : isDigitChar c = true := hds c (by simp)
    have ih2 := ih (fun d hd => hds d (by simp [hd]))
    have hunf : takeDigits (c :: (cs ++ rest)) =
        if isDigitChar c = true then
          (c :: (takeDigits (cs ++ rest)).1, (takeDigits (cs ++ rest)).2)
        else ([], c :: (cs ++ rest)) := rfl
    rw [List.cons_append, hunf, hc, if_pos rfl, ih2]

theorem parseNumber_intChars (n : Int) (rest : List Char) (hb : numBoundary rest = true) :
    parseNumber (intChars n ++ rest) = some (n, rest) := by
  have hbrk := numBreak_of_boundary hb
  by_cases hn : n < 0
  · rw [intChars, if_pos hn]
    obtain ⟨hne, hdig, hval⟩ :=
      natDigitsAux_spec (n.natAbs + 1) n.natAbs (Nat.lt_succ_self _)
    rw [natDigits]
    cases hds : natDigitsAux (n.natAbs + 1) n.natAbs with
    | nil => exact absurd hds hne
    | cons d ds =>
      rw [hds] at hdig hval
      have hunf : parseNumber (('-' :: (d :: ds)) ++ rest) =
          match takeDigits ((d :: ds) ++ rest) with
          | ([], _) => none
          | (e :: es, rest2) =>
            if numBreak rest2 = true then none
            else some (-(digitsToNat 0 (e :: es) : Int), rest2) := by
        rw [List.cons_append]
        rfl
      rw [hunf, takeDigits_append (d :: ds) rest hdig hb]
      simp only [hbrk]
      have hv := hval 0
      simp only [Nat.zero_mul, Nat.zero_add] at hv
      rw [hv]
      have hcast : (-(n.natAbs : Int)) = n := by omega
      rw [hcast]
      simp
  · rw [intChars, if_neg hn]
    obtain ⟨hne, hdig, hval⟩ :=
      natDigitsAux_spec (n.toNat + 1) n.toNat (Nat.lt_succ_self _)
    rw [natDigits]
    cases hds : natDigitsAux (n.toNat + 1) n.toNat with
    | nil => exact absurd hds hne
    | cons d ds =>
      rw [hds] at hdig hval
      have hdnotminus : d ≠ '-' := by
        have := hdig d (by simp)
        simp [isDigitChar] at this
        apply char_ne_of_toNat_ne
        show d.toNat ≠ 45
        omega
      have hunf : parseNumber ((d :: ds) ++ rest) =
          if d = '-' then
            match takeDigits (ds ++ rest) with
            | ([], _) => none
            | (e :: es, rest2) =>
              if numBreak rest2 = true then none
              else some (-(digitsToNat 0 (e :: es) : Int), rest2)
          else
            match takeDigits ((d :: ds) ++ rest) with
            | ([], _) => none
            | (e :: es, rest2) =>
              if numBreak rest2 = true then none
              else some ((digitsToNat 0 (e :: es) : Int), rest2) := by
        rw [List.cons_append]
        rfl
      rw [hunf, if_neg hdnotminus, takeDigits_append (d :: ds) rest hdig hb]
      simp only [hbrk]
      have hv := hval 0
      simp only [Nat.zero_mul, Nat.zero_add] at hv
      rw [hv]
      have hcast : ((n.toNat : Int)) = n := by omega
      rw [hcast]
      simp

theorem hexVal_hexDigitChar {d : Nat} (h : d < 16) : hexVal (hexDigitChar d) = some d := by
  interval_cases d <;> rfl

theorem parse4Hex_hexDigits (v : Nat) (hv : v < 65536) (rest : List Char) :
    parse4Hex (hexDigitChar (v / 4096 % 16) :: hexDigitChar (v / 256 % 16) ::
      hexDigitChar (v / 16 % 16) :: hexDigitChar (v % 16) :: rest) = some (v, rest) := by
  have h1 : v / 4096 % 16 < 16 := Nat.mod_lt _ (by omega)
  have h2 : v / 256 % 16 < 16 := Nat.mod_lt _ (by omega)
  have h3 : v / 16 % 16 < 16 := Nat.mod_lt _ (by omega)
  have h4 : v % 16 < 16 := Nat.mod_lt _ (by omega)
  rw [parse4Hex, hexVal_hexDigitChar h1, hexVal_hexDigitChar h2,
    hexVal_hexDigitChar h3, hexVal_hexDigitChar h4]
  have heq : 4096 * (v / 4096 % 16) + 256 * (v / 256 % 16) + 16 * (v / 16 % 16) + v % 16 = v := by
    omega
  show some (4096 * (v / 4096 % 16) + 256 * (v / 256 % 16) + 16 * (v / 16 % 16) + v % 16, rest) =
    some (v, rest)
  rw [heq]

theorem parseStrBody_quote (fuel : Nat) (rest : List Char) :
    parseStrBody (fuel + 1) (quoteChar :: rest) = some ([], rest) := rfl

theorem parseStrBody_lit {c : Char} (h1 : c ≠ quoteChar) (h2 : c ≠ backslashChar)
    (h3 : 32 ≤ c.toNat) (fuel : Nat) (rest : List Char) :
    parseStrBody (fuel + 1) (c :: rest) = consStr c (parseStrBody fuel rest) := by
  simp [parseStrBody, h1, h2, h3]

theorem parseStrBody_esc_quote (fuel : Nat) (rest : List Char) :
    parseStrBody (fuel + 1) (backslashChar :: quoteChar :: rest) =
      consStr quoteChar (parseStrBody fuel rest) := rfl

theorem parseStrBody_esc_backslash (fuel : Nat) (rest : List Char) :
    parseStrBody (fuel + 1) (backslashChar :: backslashChar :: rest) =
      consStr backslashChar (parseStrBody fuel rest) := rfl

theorem parseStrBody_esc_b (fuel : Nat) (rest : List Char) :
    parseStrBody (fuel + 1) (backslashChar :: 'b' :: rest) =
      consStr (Char.ofNat 8) (parseStrBody fuel rest) := rfl

theorem parseStrBody_esc_f (fuel : Nat) (rest : List Char) :
    parseStrBody (fuel + 1) (backslashChar :: 'f' :: rest) =
      consStr (Char.ofNat 12) (parseStrBody fuel rest) := rfl

theorem parseStrBody_esc_n (fuel : Nat) (rest : List Char) :
    parseStrBody (fuel + 1) (backslashChar :: 'n' :: rest) =
      consStr (Char.ofNat 10) (parseStrBody fuel rest) := rfl

theorem parseStrBody_esc_r (fuel : Nat) (rest : List Char) :
    parseStrBody (fuel + 1) (backslashChar :: 'r' :: rest) =
      consStr (Char.ofNat 13) (parseStrBody fuel rest) := rfl

theorem parseStrBody_esc_t (fuel : Nat) (rest : List Char) :
    parseStrBody (fuel + 1) (backslashChar :: 't' :: rest) =
      consStr (Char.ofNat 9) (parseStrBody fuel rest) := rfl

theorem parseStrBody_esc_u (fuel : Nat) (rest : List Char) :
    parseStrBody (fuel + 1) (backslashChar :: 'u' :: rest) =
      match parse4Hex rest with
      | none => none
      | some (n, rest3) =>
        if 55296 ≤ n ∧ n ≤ 56319 then
          match rest3 with
          | b1 :: u1 :: rest4 =>
            if b1 = backslashChar ∧ u1 = 'u' then
              match parse4Hex rest4 with
              | none => none
              | some (m, rest5) =>
                if 56320 ≤ m ∧ m ≤ 57343 then
                  consStr (Char.ofNat (65536 + (n - 55296) * 1024 + (m - 56320)))
                    (parseStrBody fuel rest5)
                else none
            else none
          | _ => none
        else if 56320 ≤ n ∧ n ≤ 57343 then none
        else consStr (Char.ofNat n) (parseStrBody fuel rest3) := rfl

theorem consStr_some (c : Char) (s r : List Char) :
    consStr c (some (s, r)) = some (c :: s, r) := rfl

theorem escapeList_cons (c : Char) (cs : List Char) :
    escapeList (c :: cs) = escapeChar c ++ escapeList cs := rfl

theorem parseStrBody_escapeList :
    ∀ (s : List Char) (fuel : Nat) (rest : List Char), s.length < fuel →
      parseStrBody fuel (escapeList s ++ quoteChar :: rest) = some (s, rest) := by
  intro s
  induction s with
  | nil =>
    intro fuel rest h
    cases fuel with
    | zero => omega
    | succ f =>
      rw [show escapeList [] ++ quoteChar :: rest = quoteChar :: rest from rfl,
        parseStrBody_quote]
  | cons c cs ih =>
    intro fuel rest h
    cases fuel with
    | zero => simp at h
    | succ f =>
      have hrec := ih f rest (by simp at h; omega)
      rw [escapeList_cons, List.append_assoc]
      by_cases hq : c = quoteChar
      · have he : escapeChar c = [backslashChar, quoteChar] := by
          simp only [escapeChar, if_pos hq]
        rw [he, show ([backslashChar, quoteChar] : List Char) ++
          (escapeList cs ++ quoteChar :: rest) =
          backslashChar :: quoteChar :: (escapeList cs ++ quoteChar :: rest) from rfl,
          parseStrBody_esc_quote, hrec, consStr_some, hq]
      · by_cases hbs : c = backslashChar
        · have he : escapeChar c = [backslashChar, backslashChar] := by
            simp only [escapeChar, if_neg hq, if_pos hbs]
          rw [he, show ([backslashChar, backslashChar] : List Char) ++
            (escapeList cs ++ quoteChar :: rest) =
            backslashChar :: backslashChar :: (escapeList cs ++ quoteChar :: rest) from rfl,
            parseStrBody_esc_backslash, hrec, consStr_some, hbs]
        · by_cases hpr : 32 ≤ c.toNat ∧ c.toNat ≤ 126
          · have he : escapeChar c = [c] := by
              simp only [escapeChar, if_neg hq, if_neg hbs, if_pos hpr]
            rw [he, show ([c] : List Char) ++ (escapeList cs ++ quoteChar :: rest) =
              c :: (escapeList cs ++ quoteChar :: rest) from rfl,
              parseStrBody_lit hq hbs hpr.1, hrec, consStr_some]
          · by_cases h10 : c.toNat = 10
            · have he : escapeChar c = [backslashChar, 'n'] := by
                simp only [escapeChar, if_neg hq, if_neg hbs, if_neg hpr, if_pos h10]
              have hc : Char.ofNat 10 = c := by rw [← h10, Char.ofNat_toNat]
              rw [he, show ([backslashChar, 'n'] : List Char) ++
                (escapeList cs ++ quoteChar :: rest) =
                backslashChar :: 'n' :: (escapeList cs ++ quoteChar :: rest) from rfl,
                parseStrBody_esc_n, hrec, consStr_some, hc]
            · by_cases h13 : c.toNat = 13
              · have he : escapeChar c = [backslashChar, 'r'] := by
                  simp only [escapeChar, if_neg hq, if_neg hbs, if_neg hpr, if_neg h10,
                    if_pos h13]
                have hc : Char.ofNat 13 = c := by rw [← h13, Char.ofNat_toNat]
                rw [he, show ([backslashChar, 'r'] : List Char) ++
                  (escapeList cs ++ quoteChar :: rest) =
                  backslashChar :: 'r' :: (escapeList cs ++ quoteChar :: rest) from rfl,
                  parseStrBody_esc_r, hrec, consStr_some, hc]
              · by_cases h9 : c.toNat = 9
                · have he : escapeChar c = [backslashChar, 't'] := by
                    simp only [escapeChar, if_neg hq, if_neg hbs, if_neg hpr, if_neg h10,
                      if_neg h13, if_pos h9]
                  have hc : Char.ofNat 9 = c := by rw [← h9, Char.ofNat_toNat]
                  rw [he, show ([backslashChar, 't'] : List Char) ++
                    (escapeList cs ++ quoteChar :: rest) =
                    backslashChar :: 't' :: (escapeList cs ++ quoteChar :: rest) from rfl,
                    parseStrBody_esc_t, hrec, consStr_some, hc]
                · by_cases h8 : c.toNat = 8
                  · have he : escapeChar c = [backslashChar, 'b'] := by
                      simp only [escapeChar, if_neg hq, if_neg hbs, if_neg hpr, if_neg h10,
                        if_neg h13, if_neg h9, if_pos h8]
                    have hc : Char.ofNat 8 = c := by rw [← h8, Char.ofNat_toNat]
                    rw [he, show ([backslashChar, 'b'] : List Char) ++
                      (escapeList cs ++ quoteChar :: rest) =
                      backslashChar :: 'b' :: (escapeList cs ++ quoteChar :: rest) from rfl,
                      parseStrBody_esc_b, hrec, consStr_some, hc]
                  · by_cases h12 : c.toNat = 12
                    · have he : escapeChar c = [backslashChar, 'f'] := by
                        simp only [escapeChar, if_neg hq, if_neg hbs, if_neg hpr, if_neg h10,
                          if_neg h13, if_neg h9, if_neg h8, if_pos h12]
                      have hc : Char.ofNat 12 = c := by rw [← h12, Char.ofNat_toNat]
                      rw [he, show ([backslashChar, 'f'] : List Char) ++
                        (escapeList cs ++ quoteChar :: rest) =
                        backslashChar :: 'f' :: (escapeList cs ++ quoteChar :: rest) from rfl,
                        parseStrBody_esc_f, hrec, consStr_some, hc]
                    · by_cases hlow : c.toNat < 65536
                      · have he : escapeChar c = uEscape c.toNat := by
                          simp only [escapeChar, if_neg hq, if_neg hbs, if_neg hpr, if_neg h10,
                            if_neg h13, if_neg h9, if_neg h8, if_neg h12, if_pos hlow]
                        have hval := char_valid_range c
                        have hs1 : ¬(55296 ≤ c.toNat ∧ c.toNat ≤ 56319) := by omega
                        have hs2 : ¬(56320 ≤ c.toNat ∧ c.toNat ≤ 57343) := by omega
                        rw [he, show uEscape c.toNat ++ (escapeList cs ++ quoteChar :: rest) =
                          backslashChar :: 'u' :: (hexDigitChar (c.toNat / 4096 % 16) ::
                            hexDigitChar (c.toNat / 256 % 16) :: hexDigitChar (c.toNat / 16 % 16) ::
                            hexDigitChar (c.toNat % 16) ::
                            (escapeList cs ++ quoteChar :: rest)) from rfl,
                          parseStrBody_esc_u,
                          parse4Hex_hexDigits c.toNat hlow (escapeList cs ++ quoteChar :: rest)]
                        simp only [if_neg hs1, if_neg hs2]
                        rw [hrec, consStr_some, Char.ofNat_toNat]
                      · have he : escapeChar c =
                            uEscape (55296 + (c.toNat - 65536) / 1024) ++
                            uEscape (56320 + (c.toNat - 65536) % 1024) := by
                          simp only [escapeChar, if_neg hq, if_neg hbs, if_neg hpr, if_neg h10,
                            if_neg h13, if_neg h9, if_neg h8, if_neg h12, if_neg hlow]
                        have hval := char_valid_range c
                        have hmod : (c.toNat - 65536) % 1024 < 1024 := Nat.mod_lt _ (by omega)
                        have hdiv : (c.toNat - 65536) / 1024 ≤ 1023 := by omega
                        have hhiv : 55296 + (c.toNat - 65536) / 1024 < 65536 := by omega
                        have hlov : 56320 + (c.toNat - 65536) % 1024 < 65536 := by omega
                        rw [he, List.append_assoc]
                        rw [show uEscape (55296 + (c.toNat - 65536) / 1024) ++
                          (uEscape (56320 + (c.toNat - 65536) % 1024) ++
                            (escapeList cs ++ quoteChar :: rest)) =
                          backslashChar :: 'u' ::
                            (hexDigitChar ((55296 + (c.toNat - 65536) / 1024) / 4096 % 16) ::
                             hexDigitChar ((55296 + (c.toNat - 65536) / 1024) / 256 % 16) ::
                             hexDigitChar ((55296 + (c.toNat - 65536) / 1024) / 16 % 16) ::
                             hexDigitChar ((55296 + (c.toNat - 65536) / 1024) % 16) ::
                             (uEscape (56320 + (c.toNat - 65536) % 1024) ++
                               (escapeList cs ++ quoteChar :: rest))) from rfl,
                          parseStrBody_esc_u,
                          parse4Hex_hexDigits _ hhiv _]
                        have hin1 : 55296 ≤ 55296 + (c.toNat - 65536) / 1024 ∧
                            55296 + (c.toNat - 65536) / 1024 ≤ 56319 := by omega
                        simp only [if_pos hin1]
                        rw [show uEscape (56320 + (c.toNat - 65536) % 1024) ++
                          (escapeList cs ++ quoteChar :: rest) =
                          backslashChar :: 'u' ::
                            (hexDigitChar ((56320 + (c.toNat - 65536) % 1024) / 4096 % 16) ::
                             hexDigitChar ((56320 + (c.toNat - 65536) % 1024) / 256 % 16) ::
                             hexDigitChar ((56320 + (c.toNat - 65536) % 1024) / 16 % 16) ::
                             hexDigitChar ((56320 + (c.toNat - 65536) % 1024) % 16) ::
                             (escapeList cs ++ quoteChar :: rest)) from rfl]
                        simp only [if_pos (⟨rfl, rfl⟩ : backslashChar = backslashChar ∧ 'u' = 'u')]
                        rw [parse4Hex_hexDigits _ hlov _]
                        have hin2 : 56320 ≤ 56320 + (c.toNat - 65536) % 1024 ∧
                            56320 + (c.toNat - 65536) % 1024 ≤ 57343 := by omega
                        simp only [if_pos hin2]
                        have harith : 65536 + (55296 + (c.toNat - 65536) / 1024 - 55296) * 1024 +
                            (56320 + (c.toNat - 65536) % 1024 - 56320) = c.toNat := by omega
                        rw [harith, hrec, consStr_some, Char.ofNat_toNat]
                        simp

theorem escapeChar_length_pos (c : Char) : 0 < (escapeChar c).length := by
  rw [escapeChar]
  split_ifs <;> simp [uEscape]

theorem escapeList_length_ge (s : List Char) : s.length ≤ (escapeList s).length := by
  induction s with
  | nil => simp [escapeList]
  | cons c cs ih =>
    rw [escapeList_cons, List.length_append, List.length_cons]
    have := escapeChar_length_pos c
    omega

theorem isWsChar_false_of_digit {c : Char} (h : isDigitChar c = true) :
    isWsChar c = false := by
  simp [isDigitChar] at h
  simp [isWsChar]
  omega

theorem dumpsVal_head (v : Json) :
    ∃ c t, dumpsVal v = c :: t ∧ isWsChar c = false ∧ c ≠ ']' := by
  cases v with
  | null => exact ⟨'n', _, rfl, by decide, by decide⟩
  | bool b =>
    cases b with
    | true => exact ⟨'t', _, rfl, by decide, by decide⟩
    | false => exact ⟨'f', _, rfl, by decide, by decide⟩
  | num n =>
    show ∃ c t, intChars n = c :: t ∧ _
    rw [intChars]
    by_cases hn : n < 0
    · rw [if_pos hn]
      exact ⟨'-', _, rfl, by decide, by decide⟩
    · rw [if_neg hn, natDigits]
      obtain ⟨hne, hdig, _⟩ := natDigitsAux_spec (n.toNat + 1) n.toNat (Nat.lt_succ_self _)
      cases hds : natDigitsAux (n.toNat + 1) n.toNat with
      | nil => exact absurd hds hne
      | cons d ds =>
        rw [hds] at hdig
        have hd := hdig d (by simp)
        have h1 := isWsChar_false_of_digit hd
        have h2 : d ≠ ']' := by
          simp [isDigitChar] at hd
          apply char_ne_of_toNat_ne
          show d.toNat ≠ 93
          omega
        exact ⟨d, ds, rfl, h1, h2⟩
  | str s => exact ⟨quoteChar, _, rfl, by decide, by decide⟩
  | arr xs =>
    cases xs with
    | nil => exact ⟨'[', _, rfl, by decide, by decide⟩
    | cons x rest => exact ⟨'[', _, rfl, by decide, by decide⟩
  | obj kvs =>
    cases kvs with
    | nil => exact ⟨lbraceChar, _, rfl, by decide, by decide⟩
    | cons kv rest =>
      obtain ⟨k, v⟩ := kv
      exact ⟨lbraceChar, _, rfl, by decide, by decide⟩

theorem numBoundary_dumpsArrTail (xs : List Json) (rest : List Char) :
    numBoundary (dumpsArrTail xs ++ rest) = true := by
  cases xs with
  | nil => rfl
  | cons x t => rfl

theorem numBoundary_dumpsObjTail (kvs : List (String × Json)) (rest : List Char) :
    numBoundary (dumpsObjTail kvs ++ rest) = true := by
  cases kvs with
  | nil => rfl
  | cons kv t =>
    obtain ⟨k, v⟩ := kv
    rfl

theorem insertKV_not_mem (acc : List (String × Json)) (k : String) (v : Json)
    (h : ∀ kv ∈ acc, kv.1 ≠ k) : insertKV acc k v = acc ++ [(k, v)] := by
  induction acc with
  | nil => rfl
  | cons kv0 rest ih =>
    obtain ⟨k0, v0⟩ := kv0
    have hk0 : k0 ≠ k := h (k0, v0) (by simp)
    rw [insertKV, if_neg hk0, ih (fun kv hkv => h kv (by simp [hkv]))]
    rfl

theorem nodupKeys_head {k : String} {v : Json} {rest : List (String × Json)}
    (h : nodupKeys ((k, v) :: rest) = true) :
    (∀ kv ∈ rest, kv.1 ≠ k) ∧ nodupKeys rest = true := by
  simp [nodupKeys] at h
  exact ⟨fun kv hkv => h.1 kv.1 kv.2 hkv, h.2⟩

theorem objFold_go (kvs : List (String × Json)) :
    ∀ acc, nodupKeys kvs = true → (∀ kv ∈ kvs, ∀ a ∈ acc, a.1 ≠ kv.1) →
      kvs.foldl (fun acc kv => insertKV acc kv.1 kv.2) acc = acc ++ kvs := by
  induction kvs with
  | nil => intro acc _ _; simp
  | cons kv rest ih =>
    intro acc hnd hfresh
    obtain ⟨k, v⟩ := kv
    obtain ⟨hknotin, hndrest⟩ := nodupKeys_head hnd
    rw [List.foldl_cons]
    have hins : insertKV acc k v = acc ++ [(k, v)] := by
      apply insertKV_not_mem
      intro a ha
      exact hfresh (k, v) (by simp) a ha
    rw [hins, ih (acc ++ [(k, v)]) hndrest]
    · simp
    · intro kv2 hkv2 a ha
      rw [List.mem_append] at ha
      rcases ha with ha | ha
      · exact hfresh kv2 (by simp [hkv2]) a ha
      · rw [List.mem_singleton] at ha
        subst ha
        exact fun hc => hknotin kv2 hkv2 hc.symm

theorem objFold_nodup (kvs : List (String × Json)) (h : nodupKeys kvs = true) :
    objFold kvs = kvs := by
  rw [objFold, objFold_go kvs [] h (by simp)]
  rfl

theorem costV_pos (v : Json) : 1 ≤ costV v := by
  cases v with
  | null => simp [costV]
  | bool b => simp [costV]
  | num n => simp [costV]
  | str s => simp [costV]
  | arr xs => cases xs <;> simp [costV]
  | obj kvs =>
    cases kvs with
    | nil => simp [costV]
    | cons kv rest => obtain ⟨k, v⟩ := kv; simp [costV]

theorem costA_pos (xs : List Json) : 1 ≤ costA xs := by
  cases xs <;> simp [costA]

theorem costO_pos (kvs : List (String × Json)) : 1 ≤ costO kvs := by
  cases kvs with
  | nil => simp [costO]
  | cons kv rest => obtain ⟨k, v⟩ := kv; simp [costO]

theorem parseVal_cons_space (f : Nat) (cs : List Char) :
    parseVal (f + 1) (' ' :: cs) = parseVal (f + 1) cs := rfl

theorem parseVal_cons_ws {f : Nat} (h : 1 ≤ f) (cs : List Char) :
    parseVal f (' ' :: cs) = parseVal f cs := by
  cases f with
  | zero => omega
  | succ g => exact parseVal_cons_space g cs

theorem parseVal_null (f : Nat) (r : List Char) :
    parseVal (f + 1) ('n' :: 'u' :: 'l' :: 'l' :: r) = some (Json.null, r) := rfl

theorem parseVal_true (f : Nat) (r : List Char) :
    parseVal (f + 1) ('t' :: 'r' :: 'u' :: 'e' :: r) = some (Json.bool true, r) := rfl

theorem parseVal_false (f : Nat) (r : List Char) :
    parseVal (f + 1) ('f' :: 'a' :: 'l' :: 's' :: 'e' :: r) = some (Json.bool false, r) := rfl

theorem parseVal_str (f : Nat) (T : List Char) :
    parseVal (f + 1) (quoteChar :: T) =
      match parseStrBody (T.length + 1) T with
      | some (body, r) => some (Json.str (String.mk body), r)
      | none => none := rfl

theorem parseVal_arrEmpty (f : Nat) (r : List Char) :
    parseVal (f + 1) ('[' :: ']' :: r) = some (Json.arr [], r) := rfl

theorem parseVal_arr (f : Nat) (T : List Char) :
    parseVal (f + 1) ('[' :: T) =
      match skipWs T with
      | [] => none
      | c2 :: r0 =>
        if c2 = ']' then some (Json.arr [], r0)
        else
          match parseVal f (c2 :: r0) with
          | some (x, r) =>
            match parseArrTail f r with
            | some (xs, r2) => some (Json.arr (x :: xs), r2)
            | none => none
          | none => none := rfl

theorem parseVal_objEmpty (f : Nat) (r : List Char) :
    parseVal (f + 1) (lbraceChar :: rbraceChar :: r) = some (Json.obj [], r) := rfl

theorem parseVal_obj (f : Nat) (T : List Char) :
    parseVal (f + 1) (lbraceChar :: T) =
      match skipWs T with
      | c2 :: r1 =>
        if c2 = rbraceChar then some (Json.obj [], r1)
        else if c2 = quoteChar then
          match parseStrBody (r1.length + 1) r1 with
          | some (key, r2) =>
            match skipWs r2 with
            | [] => none
            | c3 :: r3 =>
              if c3 = ':' then
                match parseVal f r3 with
                | some (v, r4) =>
                  match parseObjTail f r4 with
                  | some (kvs, r5) => some (Json.obj (objFold ((String.mk key, v) :: kvs)), r5)
                  | none => none
                | none => none
              else none
          | none => none
        else none
      | [] => none := rfl

theorem parseVal_num {c : Char} (hws : isWsChar c = false) (h1 : c ≠ 'n') (h2 : c ≠ 't')
    (h3 : c ≠ 'f') (h4 : c ≠ quoteChar) (h5 : c ≠ '[') (h6 : c ≠ lbraceChar)
    (f : Nat) (cs : List Char) :
    parseVal (f + 1) (c :: cs) =
      match parseNumber (c :: cs) with
      | some (n, r) => some (Json.num n, r)
      | none => none := by
  simp only [parseVal]
  rw [skipWs_not_ws hws]
  simp only [if_neg h1, if_neg h2, if_neg h3, if_neg h4, if_neg h5, if_neg h6]

theorem parseArrTail_rb (f : Nat) (r : List Char) :
    parseArrTail (f + 1) (']' :: r) = some ([], r) := rfl

theorem parseArrTail_comma (f : Nat) (T : List Char) :
    parseArrTail (f + 1) (',' :: T) =
      match parseVal f T with
      | some (x, r2) =>
        match parseArrTail f r2 with
        | some (xs, r3) => some (x :: xs, r3)
        | none => none
      | none => none := rfl

theorem parseObjTail_rb (f : Nat) (r : List Char) :
    parseObjTail (f + 1) (rbraceChar :: r) = some ([], r) := rfl

theorem parseObjTail_comma (f : Nat) (T : List Char) :
    parseObjTail (f + 1) (',' :: T) =
      match skipWs T with
      | c2 :: r1 =>
        if c2 = quoteChar then
          match parseStrBody (r1.length + 1) r1 with
          | some (key, r2) =>
            match skipWs r2 with
            | [] => none
            | c3 :: r3 =>
              if c3 = ':' then
                match parseVal f r3 with
                | some (v, r4) =>
                  match parseObjTail f r4 with
                  | some (kvs, r5) => some ((String.mk key, v) :: kvs, r5)
                  | none => none
                | none => none
              else none
          | none => none
        else none
      | [] => none := rfl

theorem intChars_head (n : Int) :
    ∃ c t, intChars n = c :: t ∧ 45 ≤ c.toNat ∧ c.toNat ≤ 57 := by
  rw [intChars]
  by_cases hn : n < 0
  · rw [if_pos hn]
    exact ⟨'-', _, rfl, by decide, by decide⟩
  · rw [if_neg hn, natDigits]
    obtain ⟨hne, hdig, _⟩ := natDigitsAux_spec (n.toNat + 1) n.toNat (Nat.lt_succ_self _)
    cases hds : natDigitsAux (n.toNat + 1) n.toNat with
    | nil => exact absurd hds hne
    | cons d ds =>
      rw [hds] at hdig
      have hd := hdig d (by simp)
      simp [isDigitChar] at hd
      exact ⟨d, ds, rfl, by omega, by omega⟩

theorem parseVal_obj_quote (f : Nat) (r1 : List Char) :
    parseVal (f + 1) (lbraceChar :: quoteChar :: r1) =
      match parseStrBody (r1.length + 1) r1 with
      | some (key, r2) =>
        match skipWs r2 with
        | [] => none
        | c3 :: r3 =>
          if c3 = ':' then
            match parseVal f r3 with
            | some (v, r4) =>
              match parseObjTail f r4 with
              | some (kvs, r5) => some (Json.obj (objFold ((String.mk key, v) :: kvs)), r5)
              | none => none
            | none => none
          else none
      | none => none := rfl

theorem parseObjTail_comma_quote (f : Nat) (r1 : List Char) :
    parseObjTail (f + 1) (',' :: ' ' :: quoteChar :: r1) =
      match parseStrBody (r1.length + 1) r1 with
      | some (key, r2) =>
        match skipWs r2 with
        | [] => none
        | c3 :: r3 =>
          if c3 = ':' then
            match parseVal f r3 with
            | some (v, r4) =>
              match parseObjTail f r4 with
              | some (kvs, r5) => some ((String.mk key, v) :: kvs, r5)
              | none => none
            | none => none
          else none
      | none => none := rfl

theorem parseVal_objStep (f : Nat) (kd W : List Char)
    (hkd : parseStrBody ((escapeList kd ++ (quoteChar :: (':' :: (' ' :: W)))).length + 1)
      (escapeList kd ++ (quoteChar :: (':' :: (' ' :: W)))) = some (kd, ':' :: (' ' :: W))) :
    parseVal (f + 1) (lbraceChar :: (quoteChar ::
        (escapeList kd ++ (quoteChar :: (':' :: (' ' :: W)))))) =
      match parseVal f (' ' :: W) with
      | some (v, r4) =>
        match parseObjTail f r4 with
        | some (kvs, r5) => some (Json.obj (objFold ((String.mk kd, v) :: kvs)), r5)
        | none => none
      | none => none := by
  rw [parseVal_obj_quote, hkd]
  rfl

theorem parseObjTail_objStep (f : Nat) (kd W : List Char)
    (hkd : parseStrBody ((escapeList kd ++ (quoteChar :: (':' :: (' ' :: W)))).length + 1)
      (escapeList kd ++ (quoteChar :: (':' :: (' ' :: W)))) = some (kd, ':' :: (' ' :: W))) :
    parseObjTail (f + 1) (',' :: (' ' :: (quoteChar ::
        (escapeList kd ++ (quoteChar :: (':' :: (' ' :: W))))))) =
      match parseVal f (' ' :: W) with
      | some (v, r4) =>
        match parseObjTail f r4 with
        | some (kvs, r5) => some ((String.mk kd, v) :: kvs, r5)
        | none => none
      | none => none := by
  rw [parseObjTail_comma_quote, hkd]
  rfl

theorem char_ne_of_range {c : Char} {lo hi : Nat} (h1 : lo ≤ c.toNat) (h2 : c.toNat ≤ hi)
    (d : Char) (hd : d.toNat < lo ∨ hi < d.toNat) : c ≠ d := by
  apply char_ne_of_toNat_ne
  omega

theorem parseRoundTrip : ∀ fuel : Nat,
    (∀ v rest, wfVal v = true → costV v ≤ fuel → numBoundary rest = true →
      parseVal fuel (dumpsVal v ++ rest) = some (v, rest)) ∧
    (∀ xs rest, wfArr xs = true → costA xs ≤ fuel →
      parseArrTail fuel (dumpsArrTail xs ++ rest) = some (xs, rest)) ∧
    (∀ kvs rest, wfMems kvs = true → costO kvs ≤ fuel →
      parseObjTail fuel (dumpsObjTail kvs ++ rest) = some (kvs, rest)) := by
  intro fuel
  induction fuel with
  | zero =>
    refine ⟨?_, ?_, ?_⟩
    · intro v rest _ hc _
      have := costV_pos v
      omega
    · intro xs rest _ hc
      have := costA_pos xs
      omega
    · intro kvs rest _ hc
      have := costO_pos kvs
      omega
  | succ f ih =>
    obtain ⟨ihV, ihA, ihO⟩ := ih
    refine ⟨?_, ?_, ?_⟩
    · intro v rest hwf hcost hb
      cases v with
      | null => exact parseVal_null f rest
      | bool b =>
        cases b with
        | true => exact parseVal_true f rest
        | false => exact parseVal_false f rest
      | num n =>
        obtain ⟨c0, t0, hct, hlo, hhi⟩ := intChars_head n
        have hws0 : isWsChar c0 = false := by
          simp [isWsChar]
          omega
        rw [show dumpsVal (.num n) = intChars n from rfl, hct, List.cons_append,
          parseVal_num hws0
            (char_ne_of_range hlo hhi 'n' (by decide))
            (char_ne_of_range hlo hhi 't' (by decide))
            (char_ne_of_range hlo hhi 'f' (by decide))
            (char_ne_of_range hlo hhi quoteChar (by decide))
            (char_ne_of_range hlo hhi '[' (by decide))
            (char_ne_of_range hlo hhi lbraceChar (by decide)),
          ← List.cons_append, ← hct, parseNumber_intChars n rest hb]
      | str s =>
        have hflat : dumpsVal (.str s) ++ rest =
            quoteChar :: (escapeList s.data ++ (quoteChar :: rest)) := by
          rw [show dumpsVal (.str s) = encodeString s from rfl, encodeString]
          simp [List.append_assoc]
        rw [hflat, parseVal_str]
        have hlen : s.data.length < (escapeList s.data ++ (quoteChar :: rest)).length + 1 := by
          have := escapeList_length_ge s.data
          rw [List.length_append]
          omega
        rw [parseStrBody_escapeList s.data _ rest hlen]
      | arr xs =>
        cases xs with
        | nil => exact parseVal_arrEmpty f rest
        | cons x xs =>
          simp only [wfVal, wfArr, Bool.and_eq_true] at hwf
          obtain ⟨hwx, hwxs⟩ := hwf
          simp only [costV] at hcost
          obtain ⟨c0, t0, hdv, hws0, hbr0⟩ := dumpsVal_head x
          have hcx : costV x ≤ f := by
            have := costA_pos xs
            omega
          have hca : costA xs ≤ f := by
            have := costV_pos x
            omega
          have hrx := ihV x (dumpsArrTail xs ++ rest) hwx hcx (numBoundary_dumpsArrTail xs rest)
          have hra := ihA xs rest hwxs hca
          have hflat : dumpsVal (.arr (x :: xs)) ++ rest =
              '[' :: (dumpsVal x ++ (dumpsArrTail xs ++ rest)) := by
            rw [show dumpsVal (.arr (x :: xs)) =
              '[' :: (dumpsVal x ++ dumpsArrTail xs) from rfl, List.cons_append,
              List.append_assoc]
          rw [hflat, parseVal_arr, hdv, List.cons_append, skipWs_not_ws hws0]
          simp only [if_neg hbr0]
          rw [← List.cons_append, ← hdv, hrx]
          simp only [hra]
      | obj kvs =>
        cases kvs with
        | nil => exact parseVal_objEmpty f rest
        | cons kv kvs =>
          obtain ⟨k, v⟩ := kv
          simp only [wfVal, wfMems, Bool.and_eq_true] at hwf
          obtain ⟨hnd, hwv, hwm⟩ := hwf
          simp only [costV] at hcost
          have hcv : costV v ≤ f := by
            have := costO_pos kvs
            omega
          have hco : costO kvs ≤ f := by
            have := costV_pos v
            omega
          have hf1 : 1 ≤ f := by
            have := costV_pos v
            have := costO_pos kvs
            omega
          have hrv := ihV v (dumpsObjTail kvs ++ rest) hwv hcv (numBoundary_dumpsObjTail kvs rest)
          have hro := ihO kvs rest hwm hco
          have hflat : dumpsVal (.obj ((k, v) :: kvs)) ++ rest =
              lbraceChar :: (quoteChar :: (escapeList k.data ++ (quoteChar ::
                (':' :: (' ' :: (dumpsVal v ++ (dumpsObjTail kvs ++ rest))))))) := by
            rw [show dumpsVal (.obj ((k, v) :: kvs)) = lbraceChar :: (encodeString k ++
              ':' :: ' ' :: (dumpsVal v ++ dumpsObjTail kvs)) from rfl, encodeString]
            simp [List.append_assoc]
          have hkd := parseStrBody_escapeList k.data
            ((escapeList k.data ++ (quoteChar ::
              (':' :: (' ' :: (dumpsVal v ++ (dumpsObjTail kvs ++ rest)))))).length + 1)
            (':' :: (' ' :: (dumpsVal v ++ (dumpsObjTail kvs ++ rest))))
            (by rw [List.length_append]; have := escapeList_length_ge k.data; omega)
          rw [hflat, parseVal_objStep f k.data _ hkd, parseVal_cons_ws hf1, hrv]
          simp only [hro]
          rw [show String.mk k.data = k from rfl, objFold_nodup _ hnd]
    · intro xs rest hwf hcost
      cases xs with
      | nil => exact parseArrTail_rb f rest
      | cons x xs =>
        simp only [wfArr, Bool.and_eq_true] at hwf
        obtain ⟨hwx, hwxs⟩ := hwf
        simp only [costA] at hcost
        have hcx : costV x ≤ f := by
          have := costA_pos xs
          omega
        have hca : costA xs ≤ f := by
          have := costV_pos x
          omega
        have hf1 : 1 ≤ f := by
          have := costV_pos x
          have := costA_pos xs
          omega
        have hrx := ihV x (dumpsArrTail xs ++ rest) hwx hcx (numBoundary_dumpsArrTail xs rest)
        have hra := ihA xs rest hwxs hca
        have hflat : dumpsArrTail (x :: xs) ++ rest =
            ',' :: (' ' :: (dumpsVal x ++ (dumpsArrTail xs ++ rest))) := by
          rw [show dumpsArrTail (x :: xs) =
            ',' :: ' ' :: (dumpsVal x ++ dumpsArrTail xs) from rfl]
          simp [List.append_assoc]
        rw [hflat, parseArrTail_comma, parseVal_cons_ws hf1, hrx]
        simp only [hra]
    · intro kvs rest hwf hcost
      cases kvs with
      | nil => exact parseObjTail_rb f rest
      | cons kv kvs =>
        obtain ⟨k, v⟩ := kv
        simp only [wfMems, Bool.and_eq_true] at hwf
        obtain ⟨hwv, hwm⟩ := hwf
        simp only [costO] at hcost
        have hcv : costV v ≤ f := by
          have := costO_pos kvs
          omega
        have hco : costO kvs ≤ f := by
          have := costV_pos v
          omega
        have hf1 : 1 ≤ f := by
          have := costV_pos v
          have := costO_pos kvs
          omega
        have hrv := ihV v (dumpsObjTail kvs ++ rest) hwv hcv (numBoundary_dumpsObjTail kvs rest)
        have hro := ihO kvs rest hwm hco
        have hflat : dumpsObjTail ((k, v) :: kvs) ++ rest =
            ',' :: (' ' :: (quoteChar :: (escapeList k.data ++ (quoteChar ::
              (':' :: (' ' :: (dumpsVal v ++ (dumpsObjTail kvs ++ rest)))))))) := by
          rw [show dumpsObjTail ((k, v) :: kvs) = ',' :: ' ' :: (encodeString k ++
            ':' :: ' ' :: (dumpsVal v ++ dumpsObjTail kvs)) from rfl, encodeString]
          simp [List.append_assoc]
        have hkd := parseStrBody_escapeList k.data
          ((escapeList k.data ++ (quoteChar ::
            (':' :: (' ' :: (dumpsVal v ++ (dumpsObjTail kvs ++ rest)))))).length + 1)
          (':' :: (' ' :: (dumpsVal v ++ (dumpsObjTail kvs ++ rest))))
          (by rw [List.length_append]; have := escapeList_length_ge k.data; omega)
        rw [hflat, parseObjTail_objStep f k.data _ hkd, parseVal_cons_ws hf1, hrv]
        simp only [hro]

mutual

theorem costV_le_len : ∀ v : Json, costV v ≤ (dumpsVal v).length + 1
  | .null => by simp [costV, dumpsVal]
  | .bool b => by cases b <;> simp [costV, dumpsVal]
  | .num n => by
    simp only [costV]
    omega
  | .str s => by
    simp only [costV]
    omega
  | .arr [] => by simp [costV, dumpsVal]
  | .arr (x :: xs) => by
    have h1 := costV_le_len x
    have h2 := costA_le_len xs
    simp only [costV, dumpsVal, List.length_cons, List.length_append]
    omega
  | .obj [] => by simp [costV, dumpsVal]
  | .obj ((k, v) :: kvs) => by
    have h1 := costV_le_len v
    have h2 := costO_le_len kvs
    simp only [costV, dumpsVal, List.length_cons, List.length_append]
    omega

theorem costA_le_len : ∀ xs : List Json, costA xs ≤ (dumpsArrTail xs).length
  | [] => by simp [costA, dumpsArrTail]
  | x :: xs => by
    have h1 := costV_le_len x
    have h2 := costA_le_len xs
    simp only [costA, dumpsArrTail, List.length_cons, List.length_append]
    omega

theorem costO_le_len : ∀ kvs : List (String × Json), costO kvs ≤ (dumpsObjTail kvs).length
  | [] => by simp [costO, dumpsObjTail]
  | (k, v) :: kvs => by
    have h1 := costV_le_len v
    have h2 := costO_le_len kvs
    simp only [costO, dumpsObjTail, List.length_cons, List.length_append]
    omega

end

/-- Round trip of the modelled `json` module: decoding the text `json.dumps`
produced for a well-formed document gives the document back, exactly as
`json.loads(json.dumps(payload)) == payload` in Python. -/
theorem loads_dumps (v : Json) (hwf : wfVal v = true) : Json.loads (Json.dumps v) = some v := by
  have hfuel : costV v ≤ (dumpsVal v).length + 1 := costV_le_len v
  have h := (parseRoundTrip ((dumpsVal v).length + 1)).1 v [] hwf hfuel rfl
  rw [List.append_nil] at h
  rw [Json.dumps, Json.loads]
  rw [show (String.mk (dumpsVal v)).data = dumpsVal v from rfl, h]
  rfl

theorem minById_none {xs : List Job} (h : minById xs = none) : xs = [] := by
  cases hxs : xs with
  | nil => rfl
  | cons x rest =>
    rw [hxs, minById] at h
    cases hm : minById rest with
    | none =>
      simp only [hm] at h
      simp at h
    | some m =>
      simp only [hm] at h
      by_cases hle : x.id ≤ m.id <;> simp [hle] at h

theorem minById_mem {xs : List Job} {j : Job} (h : minById xs = some j) : j ∈ xs := by
  induction xs with
  | nil => simp [minById] at h
  | cons x rest ih =>
    rw [minById] at h
    cases hm : minById rest with
    | none =>
      simp only [hm, Option.some.injEq] at h
      simp [h]
    | some m =>
      simp only [hm] at h
      by_cases hle : x.id ≤ m.id
      · rw [if_pos hle] at h
        injection h with h
        simp [h]
      · rw [if_neg hle] at h
        injection h with h
        subst h
        exact List.mem_cons_of_mem x (ih hm)

theorem minById_le {xs : List Job} :
    ∀ {j : Job}, minById xs = some j → ∀ x ∈ xs, j.id ≤ x.id := by
  induction xs with
  | nil =>
    intro j h
    simp [minById] at h
  | cons x rest ih =>
    intro j h
    rw [minById] at h
    intro y hy
    rw [List.mem_cons] at hy
    cases hm : minById rest with
    | none =>
      simp only [hm, Option.some.injEq] at h
      have hrest := minById_none hm
      subst hrest
      rcases hy with hy | hy
      · rw [hy, ← h]
      · simp at hy
    | some m =>
      simp only [hm] at h
      by_cases hle : x.id ≤ m.id
      · rw [if_pos hle] at h
        injection h with h
        subst h
        rcases hy with hy | hy
        · rw [hy]
        · have := ih hm y hy
          omega
      · rw [if_neg hle] at h
        injection h with h
        subst h
        rcases hy with hy | hy
        · rw [hy]
          omega
        · exact ih hm y hy

theorem isReady_iff {now : Nat} {j : Job} :
    isReady now j = true ↔ j.status = Status.pending ∧ j.available_at ≤ now := by
  simp [isReady]

theorem claimSelect_spec {now : Nat} {db : List Job} {j : Job}
    (h : claimSelect now db = some j) :
    j ∈ db ∧ j.status = Status.pending ∧ j.available_at ≤ now ∧
      ∀ x ∈ db, x.status = Status.pending → x.available_at ≤ now → j.id ≤ x.id := by
  rw [claimSelect] at h
  have hmem := minById_mem h
  rw [List.mem_filter] at hmem
  have hready := isReady_iff.mp hmem.2
  refine ⟨hmem.1, hready.1, hready.2, ?_⟩
  intro x hx hxs hxa
  exact minById_le h x (List.mem_filter.mpr ⟨hx, isReady_iff.mpr ⟨hxs, hxa⟩⟩)

theorem claimSelect_none {now : Nat} {db : List Job} (h : claimSelect now db = none) :
    ∀ x ∈ db, ¬(x.status = Status.pending ∧ x.available_at ≤ now) := by
  rw [claimSelect] at h
  have := minById_none h
  intro x hx hcon
  have : x ∈ db.filter (isReady now) :=
    List.mem_filter.mpr ⟨hx, isReady_iff.mpr hcon⟩
  rw [minById_none h] at this
  simp at this

theorem eq_of_mem_nodup_id {db : List Job} (hnd : (db.map Job.id).Nodup) {a b : Job}
    (ha : a ∈ db) (hb : b ∈ db) (hid : a.id = b.id) : a = b :=
  List.inj_on_of_nodup_map hnd ha hb hid

theorem mem_update_by_id {tid : Nat} {g : Job → Job} {db : List Job} {r : Job}
    (hr : r ∈ db.map fun x => if x.id = tid then g x else x) :
    ∃ x ∈ db, (x.id = tid ∧ r = g x) ∨ (x.id ≠ tid ∧ r = x) := by
  rw [List.mem_map] at hr
  obtain ⟨x, hx, hxr⟩ := hr
  by_cases hxid : x.id = tid
  · exact ⟨x, hx, Or.inl ⟨hxid, by rw [← hxr, if_pos hxid]⟩⟩
  · exact ⟨x, hx, Or.inr ⟨hxid, by rw [← hxr, if_neg hxid]⟩⟩

/-- C1: When a handler failure is processed by `handle_job_failure` with base
delay `b`, the attempt count becomes exactly one more than the snapshot's;
if the new count is strictly below `max_attempts` the job row becomes
`pending` with `available_at = now + b * 2^(new_attempts - 1)` and
`last_error` the failure message, otherwise it becomes `dlq` with the new
attempt count and the failure message — for every job and every failure. -/
theorem C1_handle_job_failure (job : Job) (msg : String) (b now : Nat) (db : List Job)
    (r : Job) (hr : r ∈ handle_job_failure job msg b now db) (hid : r.id = job.id) :
    r.attempts = job.attempts + 1 ∧
    (job.attempts + 1 < job.max_attempts →
      r.status = Status.pending ∧ r.available_at = now + b * 2 ^ (job.attempts + 1 - 1) ∧
      r.last_error = some msg) ∧
    (¬ job.attempts + 1 < job.max_attempts →
      r.status = Status.dlq ∧ r.last_error = some msg) := by
  simp only [handle_job_failure] at hr
  by_cases hb : job.max_attempts ≤ job.attempts + 1
  · rw [if_pos hb] at hr
    obtain ⟨x, _, hcase⟩ := mem_update_by_id hr
    rcases hcase with ⟨hxid, hxr⟩ | ⟨hxid, hxr⟩
    · subst hxr
      exact ⟨rfl, fun h => absurd h (by omega), fun _ => ⟨rfl, rfl⟩⟩
    · rw [hxr] at hid
      exact absurd hid hxid
  · rw [if_neg hb] at hr
    obtain ⟨x, _, hcase⟩ := mem_update_by_id hr
    rcases hcase with ⟨hxid, hxr⟩ | ⟨hxid, hxr⟩
    · subst hxr
      exact ⟨rfl, fun _ => ⟨rfl, rfl, rfl⟩, fun h => absurd (by omega) h⟩
    · rw [hxr] at hid
      exact absurd hid hxid

theorem C1_witness :
    ∃ r ∈ handle_job_failure c1Snapshot "boom" 5 100 [c1Snapshot],
      r.attempts = 1 ∧ r.status = Status.pending ∧ r.available_at = 105 ∧
        r.last_error = some "boom" := by
  refine ⟨c1Updated, by decide, ?_⟩
  have h := C1_handle_job_failure c1Snapshot "boom" 5 100 [c1Snapshot] c1Updated
    (by decide) (by decide)
  exact ⟨h.1, (h.2.1 (by decide)).1, (h.2.1 (by decide)).2.1, (h.2.1 (by decide)).2.2⟩

/-- C6: the claim operation selects exactly the pending job with the
smallest id among those with `available_at ≤ now`, marks that row running
(`claimUpdate`), and returns the pre-transition snapshot; with no ready
pending job it returns `none` and leaves the store unchanged. -/
theorem C6_get_next_pending_job (now : Nat) (db : List Job) :
    (∀ j db2, get_next_pending_job now db = (some j, db2) →
      j ∈ db ∧ j.status = Status.pending ∧ j.available_at ≤ now ∧
      (∀ x ∈ db, x.status = Status.pending → x.available_at ≤ now → j.id ≤ x.id) ∧
      ((db.map Job.id).Nodup →
        ∀ x ∈ db, x.status = Status.pending → x.available_at ≤ now → x.id = j.id → x = j) ∧
      db2 = claimUpdate j.id now db) ∧
    (∀ db2, get_next_pending_job now db = (none, db2) →
      db2 = db ∧ ∀ x ∈ db, ¬(x.status = Status.pending ∧ x.available_at ≤ now)) := by
  constructor
  · intro j db2 h
    cases hsel : claimSelect now db with
    | none =>
      rw [get_next_pending_job, hsel] at h
      simp at h
    | some j0 =>
      rw [get_next_pending_job, hsel] at h
      simp only [Prod.mk.injEq, Option.some.injEq] at h
      obtain ⟨hj, hdb2⟩ := h
      subst hj
      obtain ⟨hmem, hst, hav, hmin⟩ := claimSelect_spec hsel
      exact ⟨hmem, hst, hav, hmin,
        fun hnd x hx _ _ hxid => eq_of_mem_nodup_id hnd hx hmem hxid,
        hdb2.symm⟩
  · intro db2 h
    cases hsel : claimSelect now db with
    | none =>
      rw [get_next_pending_job, hsel] at h
      simp only [Prod.mk.injEq] at h
      exact ⟨h.2.symm, fun x hx hcon => claimSelect_none hsel x hx hcon⟩
    | some j0 =>
      rw [get_next_pending_job, hsel] at h
      simp at h

theorem C6_witness :
    ((get_next_pending_job 50 [c6JobA, c6JobB]).1.map Job.id = some 2) ∧
    ∀ x ∈ [c6JobA, c6JobB], x.status = Status.pending → x.available_at ≤ 50 →
      c6JobA.id ≤ x.id := by
  refine ⟨by decide, ?_⟩
  exact ((C6_get_next_pending_job 50 [c6JobA, c6JobB]).1 c6JobA
    (claimUpdate c6JobA.id 50 [c6JobA, c6JobB]) (by decide)).2.2.2.1

theorem frame_of_update (target : Nat) (g : Job → Job)
    (hg : ∀ x, (g x).id = x.id ∧ (g x).type = x.type ∧ (g x).payload = x.payload ∧
      (g x).max_attempts = x.max_attempts ∧ (g x).created_at = x.created_at)
    (db : List Job) :
    frameClaim (db.map fun r => if r.id = target then g r else r) db target := by
  refine ⟨by simp, ?_⟩
  intro i old hold
  refine ⟨if old.id = target then g old else old, ?_, ?_⟩
  · rw [List.getElem?_map, hold]
    rfl
  · by_cases h : old.id = target
    · rw [if_pos h]
      obtain ⟨h1, h2, h3, h4, h5⟩ := hg old
      exact ⟨h1, h2, h3, h4, h5, fun hne => absurd h hne⟩
    · rw [if_neg h]
      exact ⟨rfl, rfl, rfl, rfl, rfl, fun _ => rfl⟩

/-- C10: `mark_job_completed`, `move_job_to_dlq` and `handle_job_failure`
each touch at most `status`, `attempts`, `available_at`, `last_error` and
`updated_at` of the rows matching the targeted id; `id`, `type`, `payload`,
`max_attempts` and `created_at` are preserved everywhere, every other row
is completely unchanged, and no row is added, removed or reordered. -/
theorem C10_frame (id : Nat) (msg msg2 : String) (job : Job) (b now : Nat)
    (db : List Job) :
    frameClaim (mark_job_completed id now db) db id ∧
    frameClaim (move_job_to_dlq id msg now db) db id ∧
    frameClaim (handle_job_failure job msg2 b now db) db job.id := by
  refine ⟨?_, ?_, ?_⟩
  · exact frame_of_update id
      (fun r => { r with status := Status.completed, updated_at := now })
      (fun x => ⟨rfl, rfl, rfl, rfl, rfl⟩) db
  · exact frame_of_update id
      (fun r => { r with status := Status.dlq, last_error := some msg, updated_at := now })
      (fun x => ⟨rfl, rfl, rfl, rfl, rfl⟩) db
  · simp only [handle_job_failure]
    by_cases hb : job.max_attempts ≤ job.attempts + 1
    · rw [if_pos hb]
      exact frame_of_update job.id
        (fun r =>
          { r with
              status := Status.dlq
              attempts := job.attempts + 1
              last_error := some msg2
              updated_at := now })
        (fun x => ⟨rfl, rfl, rfl, rfl, rfl⟩) db
    · rw [if_neg hb]
      exact frame_of_update job.id
        (fun r =>
          { r with
              status := Status.pending
              attempts := job.attempts + 1
              available_at := now + b * 2 ^ (job.attempts + 1 - 1)
              last_error := some msg2
              updated_at := now })
        (fun x => ⟨rfl, rfl, rfl, rfl, rfl⟩) db

theorem C10_witness :
    [c10Job, c10Other][0]? = some c10Job ∧
    ∃ new, (mark_job_completed 4 50 [c10Job, c10Other])[0]? = some new ∧
      framePreserved 4 c10Job new := by
  refine ⟨by decide, ?_⟩
  exact ((C10_frame 4 "m" "m2" c10Job 5 50 [c10Job, c10Other]).1).2 0 c10Job (by decide)

/-- C4: resetting a DLQ job requeues it with `status = pending`,
`attempts = 0`, `last_error = NULL` and `available_at` equal to the current
instant (hence `≤ now`); resetting an existing non-DLQ job fails with the
state error and an unknown id fails with the not-found error, and in both
failure cases the stored state is completely unchanged (the `ValueError` is
raised before any `UPDATE` runs). -/
theorem C4_retry_dlq_job (id now : Nat) (db : List Job) :
    (∀ job, db.find? (fun j => j.id = id) = some job → job.status = Status.dlq →
      ∃ db2, retry_dlq_job id now db = Except.ok db2 ∧
        ∀ r ∈ db2, r.id = id →
          r.status = Status.pending ∧ r.attempts = 0 ∧ r.last_error = none ∧
          r.available_at = now ∧ r.available_at ≤ now) ∧
    (∀ job, db.find? (fun j => j.id = id) = some job → job.status ≠ Status.dlq →
      retry_dlq_job id now db = Except.error (RetryErr.invalidState job.status) ∧
      ∀ s : QState, s.jobs = db → applyOp (SysOp.retryDlq id) now s = s) ∧
    ((∀ j ∈ db, ¬ j.id = id) →
      retry_dlq_job id now db = Except.error RetryErr.notFound ∧
      ∀ s : QState, s.jobs = db → applyOp (SysOp.retryDlq id) now s = s) := by
  refine ⟨?_, ?_, ?_⟩
  · intro job hfind hdlq
    simp only [retry_dlq_job, hfind]
    rw [if_pos hdlq]
    refine ⟨_, rfl, ?_⟩
    intro r hr hrid
    obtain ⟨x, _, hcase⟩ := mem_update_by_id hr
    rcases hcase with ⟨hxid, hxr⟩ | ⟨hxid, hxr⟩
    · subst hxr
      exact ⟨rfl, rfl, rfl, rfl, le_refl _⟩
    · rw [hxr] at hrid
      exact absurd hrid hxid
  · intro job hfind hnd
    have herr : retry_dlq_job id now db = Except.error (RetryErr.invalidState job.status) := by
      simp only [retry_dlq_job, hfind]
      rw [if_neg hnd]
    refine ⟨herr, ?_⟩
    intro s hs
    simp only [applyOp, hs, herr]
  · intro hnone
    have hfind : db.find? (fun j => j.id = id) = none := by
      rw [List.find?_eq_none]
      intro x hx
      simp [hnone x hx]
    have herr : retry_dlq_job id now db = Except.error RetryErr.notFound := by
      simp only [retry_dlq_job, hfind]
    refine ⟨herr, ?_⟩
    intro s hs
    simp only [applyOp, hs, herr]

theorem C4_witness :
    (∃ db2, retry_dlq_job 3 40 [c4Dlq] = Except.ok db2 ∧
      ∀ r ∈ db2, r.id = 3 →
        r.status = Status.pending ∧ r.attempts = 0 ∧ r.last_error = none ∧
        r.available_at = 40 ∧ r.available_at ≤ 40) ∧
    (retry_dlq_job 9 40 [c4Dlq] = Except.error RetryErr.notFound ∧
      ∀ s : QState, s.jobs = [c4Dlq] → applyOp (SysOp.retryDlq 9) 40 s = s) := by
  constructor
  · exact (C4_retry_dlq_job 3 40 [c4Dlq]).1 c4Dlq (by decide) (by decide)
  · exact (C4_retry_dlq_job 9 40 [c4Dlq]).2.2 (by decide)

theorem get_next_none {now : Nat} {db : List Job} (h : claimSelect now db = none) :
    get_next_pending_job now db = (none, db) := by
  rw [get_next_pending_job, h]

theorem get_next_some {now : Nat} {db : List Job} {j : Job}
    (h : claimSelect now db = some j) :
    get_next_pending_job now db = (some j, claimUpdate j.id now db) := by
  rw [get_next_pending_job, h]

theorem workerStep_none {H : Registry} {b now : Nat} {db : List Job}
    (h : claimSelect now db = none) :
    workerStep H b now db = (StepResult.idle, db) := by
  simp only [workerStep, get_next_none h]

theorem workerStep_claimed {H : Registry} {b now : Nat} {db : List Job} {j : Job}
    (h : claimSelect now db = some j) :
    workerStep H b now db =
      match Json.loads j.payload with
      | none => (StepResult.rejectedJson j,
                 move_job_to_dlq j.id "Invalid JSON payload stored" now (claimUpdate j.id now db))
      | some payload =>
        match H j.type with
        | none => (StepResult.rejectedType j,
                   move_job_to_dlq j.id ("Unknown job type: " ++ j.type) now
                     (claimUpdate j.id now db))
        | some handler =>
          match handler payload with
          | Except.error msg => (StepResult.failed j msg,
                                 handle_job_failure j msg b now (claimUpdate j.id now db))
          | Except.ok _ => (StepResult.completedJob j,
                            mark_job_completed j.id now (claimUpdate j.id now db)) := by
  simp only [workerStep, get_next_some h]

theorem workerStep_cases (H : Registry) (b now : Nat) (db : List Job) (res : StepResult)
    (db2 : List Job) (h : workerStep H b now db = (res, db2)) :
    (res = StepResult.idle ∧ db2 = db ∧ claimSelect now db = none) ∨
    ∃ j, claimSelect now db = some j ∧
      ((res = StepResult.rejectedJson j ∧ Json.loads j.payload = none ∧
        db2 = move_job_to_dlq j.id "Invalid JSON payload stored" now
          (claimUpdate j.id now db)) ∨
       (res = StepResult.rejectedType j ∧ (∃ p, Json.loads j.payload = some p) ∧
        H j.type = none ∧
        db2 = move_job_to_dlq j.id ("Unknown job type: " ++ j.type) now
          (claimUpdate j.id now db)) ∨
       (∃ msg p handler, res = StepResult.failed j msg ∧ Json.loads j.payload = some p ∧
        H j.type = some handler ∧ handler p = Except.error msg ∧
        db2 = handle_job_failure j msg b now (claimUpdate j.id now db)) ∨
       (∃ p handler, res = StepResult.completedJob j ∧ Json.loads j.payload = some p ∧
        H j.type = some handler ∧ handler p = Except.ok () ∧
        db2 = mark_job_completed j.id now (claimUpdate j.id now db))) := by
  cases hsel : claimSelect now db with
  | none =>
    rw [workerStep_none hsel] at h
    injection h with h1 h2
    exact Or.inl ⟨h1.symm, h2.symm, rfl⟩
  | some j =>
    rw [workerStep_claimed hsel] at h
    refine Or.inr ⟨j, rfl, ?_⟩
    cases hload : Json.loads j.payload with
    | none =>
      simp only [hload] at h
      injection h with h1 h2
      exact Or.inl ⟨h1.symm, rfl, h2.symm⟩
    | some p =>
      simp only [hload] at h
      cases hreg : H j.type with
      | none =>
        simp only [hreg] at h
        injection h with h1 h2
        exact Or.inr (Or.inl ⟨h1.symm, ⟨p, rfl⟩, rfl, h2.symm⟩)
      | some handler =>
        simp only [hreg] at h
        cases hout : handler p with
        | error msg =>
          simp only [hout] at h
          injection h with h1 h2
          exact Or.inr (Or.inr (Or.inl ⟨msg, p, handler, h1.symm, rfl, rfl, hout, h2.symm⟩))
        | ok u =>
          simp only [hout] at h
          injection h with h1 h2
          cases u
          exact Or.inr (Or.inr (Or.inr ⟨p, handler, h1.symm, rfl, rfl, hout, h2.symm⟩))

theorem move_job_to_dlq_spec {tid : Nat} {msg : String} {now : Nat} {db : List Job} {r : Job}
    (hr : r ∈ move_job_to_dlq tid msg now db) (hid : r.id = tid) :
    ∃ x ∈ db, x.id = tid ∧
      r = { x with status := Status.dlq, last_error := some msg, updated_at := now } := by
  obtain ⟨x, hx, hcase⟩ := mem_update_by_id hr
  rcases hcase with ⟨hxid, hxr⟩ | ⟨hxid, hxr⟩
  · exact ⟨x, hx, hxid, hxr⟩
  · rw [hxr] at hid
    exact absurd hid hxid

theorem mark_job_completed_spec {tid now : Nat} {db : List Job} {r : Job}
    (hr : r ∈ mark_job_completed tid now db) (hid : r.id = tid) :
    ∃ x ∈ db, x.id = tid ∧
      r = { x with status := Status.completed, updated_at := now } := by
  obtain ⟨x, hx, hcase⟩ := mem_update_by_id hr
  rcases hcase with ⟨hxid, hxr⟩ | ⟨hxid, hxr⟩
  · exact ⟨x, hx, hxid, hxr⟩
  · rw [hxr] at hid
    exact absurd hid hxid

theorem handle_job_failure_spec {job : Job} {msg : String} {b now : Nat} {db : List Job}
    {r : Job} (hr : r ∈ handle_job_failure job msg b now db) (hid : r.id = job.id) :
    ∃ x ∈ db, x.id = job.id ∧
      ((job.max_attempts ≤ job.attempts + 1 ∧
        r = { x with
                status := Status.dlq
                attempts := job.attempts + 1
                last_error := some msg
                updated_at := now }) ∨
       (job.attempts + 1 < job.max_attempts ∧
        r = { x with
                status := Status.pending
                attempts := job.attempts + 1
                available_at := now + b * 2 ^ (job.attempts + 1 - 1)
                last_error := some msg
                updated_at := now })) := by
  simp only [handle_job_failure] at hr
  by_cases hb : job.max_attempts ≤ job.attempts + 1
  · rw [if_pos hb] at hr
    obtain ⟨x, hx, hcase⟩ := mem_update_by_id hr
    rcases hcase with ⟨hxid, hxr⟩ | ⟨hxid, hxr⟩
    · exact ⟨x, hx, hxid, Or.inl ⟨hb, hxr⟩⟩
    · rw [hxr] at hid
      exact absurd hid hxid
  · rw [if_neg hb] at hr
    obtain ⟨x, hx, hcase⟩ := mem_update_by_id hr
    rcases hcase with ⟨hxid, hxr⟩ | ⟨hxid, hxr⟩
    · exact ⟨x, hx, hxid, Or.inr ⟨by omega, hxr⟩⟩
    · rw [hxr] at hid
      exact absurd hid hxid

theorem claimUpdate_mem {tid now : Nat} {db : List Job} {r : Job}
    (hr : r ∈ claimUpdate tid now db) :
    ∃ x ∈ db, (x.id = tid ∧ r = { x with status := Status.running, updated_at := now }) ∨
      (x.id ≠ tid ∧ r = x) :=
  mem_update_by_id hr

theorem claimUpdate_row_eq {now : Nat} {db : List Job} {j x : Job}
    (hnd : (db.map Job.id).Nodup) (hj : j ∈ db) (hx : x ∈ claimUpdate j.id now db)
    (hxid : x.id = j.id) :
    x = { j with status := Status.running, updated_at := now } := by
  obtain ⟨y, hy, hcase⟩ := claimUpdate_mem hx
  rcases hcase with ⟨hyid, hxy⟩ | ⟨hyid, hxy⟩
  · have : y = j := eq_of_mem_nodup_id hnd hy hj hyid
    rw [hxy, this]
  · rw [hxy] at hxid
    exact absurd hxid hyid

/-- C3: a claimed job whose stored payload does not decode, or whose type
has no registered handler, is routed to `dlq` before any handler runs, with
its attempt count unchanged and `last_error` exactly the diagnostic string
(`"Invalid JSON payload stored"` or `"Unknown job type: <type>"`).  For the
decode failure the entire step is independent of the handler registry; for
the registry miss no handler exists to invoke. -/
theorem C3_claim_rejection (H : Registry) (b now : Nat) (db : List Job)
    (hnd : (db.map Job.id).Nodup) :
    (∀ j db2, workerStep H b now db = (StepResult.rejectedJson j, db2) →
      Json.loads j.payload = none ∧
      (∀ H2 : Registry, workerStep H2 b now db = (StepResult.rejectedJson j, db2)) ∧
      ∀ r ∈ db2, r.id = j.id →
        r.status = Status.dlq ∧ r.last_error = some "Invalid JSON payload stored" ∧
        r.attempts = j.attempts) ∧
    (∀ j db2, workerStep H b now db = (StepResult.rejectedType j, db2) →
      H j.type = none ∧
      ∀ r ∈ db2, r.id = j.id →
        r.status = Status.dlq ∧ r.last_error = some ("Unknown job type: " ++ j.type) ∧
        r.attempts = j.attempts) := by
  constructor
  · intro j db2 h
    rcases workerStep_cases H b now db _ db2 h with
      ⟨hres, _, _⟩ | ⟨j0, hsel, hbr⟩
    · simp at hres
    · rcases hbr with ⟨hres, hload, hdb2⟩ | ⟨hres, _, _, _⟩ | ⟨m, p, hh, hres, _⟩ |
        ⟨p, hh, hres, _⟩ <;> try simp at hres
      subst hres
      have hjmem := (claimSelect_spec hsel).1
      refine ⟨hload, ?_, ?_⟩
      · intro H2
        rw [workerStep_claimed hsel]
        simp only [hload, hdb2]
      · intro r hr hrid
        rw [hdb2] at hr
        obtain ⟨x, hx, hxid, hrx⟩ := move_job_to_dlq_spec hr hrid
        have hxj := claimUpdate_row_eq hnd hjmem hx hxid
        subst hrx
        rw [hxj]
        exact ⟨rfl, rfl, rfl⟩
  · intro j db2 h
    rcases workerStep_cases H b now db _ db2 h with
      ⟨hres, _, _⟩ | ⟨j0, hsel, hbr⟩
    · simp at hres
    · rcases hbr with ⟨hres, _, _⟩ | ⟨hres, _, hreg, hdb2⟩ | ⟨m, p, hh, hres, _⟩ |
        ⟨p, hh, hres, _⟩ <;> try simp at hres
      subst hres
      have hjmem := (claimSelect_spec hsel).1
      refine ⟨hreg, ?_⟩
      intro r hr hrid
      rw [hdb2] at hr
      obtain ⟨x, hx, hxid, hrx⟩ := move_job_to_dlq_spec hr hrid
      have hxj := claimUpdate_row_eq hnd hjmem hx hxid
      subst hrx
      rw [hxj]
      exact ⟨rfl, rfl, rfl⟩

theorem C3_witness :
    Json.loads c3Bad.payload = none ∧
    ∀ r ∈ (workerStep c3H 5 9 [c3Bad]).2, r.id = c3Bad.id →
      r.status = Status.dlq ∧ r.last_error = some "Invalid JSON payload stored" ∧
      r.attempts = c3Bad.attempts := by
  have h := (C3_claim_rejection c3H 5 9 [c3Bad] (by decide)).1 c3Bad
    (workerStep c3H 5 9 [c3Bad]).2 rfl
  exact ⟨h.1, h.2.2⟩

/-- C7: every worker iteration that claims a job persists exactly one
resolution for it — `completed`, rescheduled `pending`, or `dlq` — and never
leaves it `running`; and the loop body is total, so after any iteration
(whatever the handler did, including raising) the loop goes on to the next
one. -/
theorem C7_worker_resolution (H : Registry) (b now : Nat) (db : List Job) :
    (∀ res db2 j, workerStep H b now db = (res, db2) → res.claimed = some j →
      ∀ r ∈ db2, r.id = j.id →
        (r.status = Status.completed ∨ r.status = Status.pending ∨
          r.status = Status.dlq) ∧ r.status ≠ Status.running) ∧
    (∀ (nows : List Nat) (t : Nat) (db0 : List Job),
      runWorkerN H b (t :: nows) db0 = runWorkerN H b nows (workerStep H b t db0).2) := by
  constructor
  · intro res db2 j h hclaim
    intro r hr hrid
    rcases workerStep_cases H b now db res db2 h with
      ⟨hres, _, _⟩ | ⟨j0, hsel, hbr⟩
    · rw [hres] at hclaim
      simp [StepResult.claimed] at hclaim
    · rcases hbr with ⟨hres, _, hdb2⟩ | ⟨hres, _, _, hdb2⟩ |
        ⟨m, p, hh, hres, _, _, _, hdb2⟩ | ⟨p, hh, hres, _, _, _, hdb2⟩
      · rw [hres] at hclaim
        simp [StepResult.claimed] at hclaim
        subst hclaim
        rw [hdb2] at hr
        obtain ⟨x, _, _, hrx⟩ := move_job_to_dlq_spec hr hrid
        subst hrx
        exact ⟨Or.inr (Or.inr rfl), by simp⟩
      · rw [hres] at hclaim
        simp [StepResult.claimed] at hclaim
        subst hclaim
        rw [hdb2] at hr
        obtain ⟨x, _, _, hrx⟩ := move_job_to_dlq_spec hr hrid
        subst hrx
        exact ⟨Or.inr (Or.inr rfl), by simp⟩
      · rw [hres] at hclaim
        simp [StepResult.claimed] at hclaim
        subst hclaim
        rw [hdb2] at hr
        obtain ⟨x, _, _, hcase⟩ := handle_job_failure_spec hr hrid
        rcases hcase with ⟨_, hrx⟩ | ⟨_, hrx⟩
        · subst hrx
          exact ⟨Or.inr (Or.inr rfl), by simp⟩
        · subst hrx
          exact ⟨Or.inr (Or.inl rfl), by simp⟩
      · rw [hres] at hclaim
        simp [StepResult.claimed] at hclaim
        subst hclaim
        rw [hdb2] at hr
        obtain ⟨x, _, _, hrx⟩ := mark_job_completed_spec hr hrid
        subst hrx
        exact ⟨Or.inl rfl, by simp⟩
  · intro nows t db0
    rfl

theorem C7_witness :
    ∀ r ∈ (workerStep c7H 5 9 [c7Job]).2, r.id = c7Job.id →
      (r.status = Status.completed ∨ r.status = Status.pending ∨
        r.status = Status.dlq) ∧ r.status ≠ Status.running :=
  (C7_worker_resolution c7H 5 9 [c7Job]).1 (workerStep c7H 5 9 [c7Job]).1
    (workerStep c7H 5 9 [c7Job]).2 c7Job rfl rfl

/-- C9: every JSON document accepted by `enqueue_job` survives the
dumps/loads round trip — the worker's decode of the stored payload succeeds
and yields the enqueued document — so a job created through `enqueue_job`
can never take the `"Invalid JSON payload stored"` DLQ branch. -/
theorem C9_payload_roundtrip :
    (∀ d : Json, wfVal d = true → Json.loads (Json.dumps d) = some d) ∧
    (∀ (ty : String) (d : Json) (m : Nat) (a : Option Nat) (now : Nat) (s : QState)
      (j : Job), j ∈ (enqueue_job ty d m a now s).2.jobs → j ∉ s.jobs → wfVal d = true →
      Json.loads j.payload = some d) ∧
    (∀ (H : Registry) (b now : Nat) (db : List Job) (res : StepResult) (db2 : List Job)
      (j : Job) (d : Json), workerStep H b now db = (res, db2) →
      j.payload = Json.dumps d → wfVal d = true → res ≠ StepResult.rejectedJson j) := by
  refine ⟨loads_dumps, ?_, ?_⟩
  · intro ty d m a now s j hj hnot hwf
    simp only [enqueue_job, List.mem_append, List.mem_singleton] at hj
    rcases hj with hj | hj
    · exact absurd hj hnot
    · rw [hj]
      exact loads_dumps d hwf
  · intro H b now db res db2 j d h hpay hwf hres
    subst hres
    rcases workerStep_cases H b now db _ db2 h with
      ⟨hres, _, _⟩ | ⟨j0, hsel, hbr⟩
    · simp at hres
    · rcases hbr with ⟨hres, hload, _⟩ | ⟨hres, _, _, _⟩ | ⟨m2, p, hh, hres, _⟩ |
        ⟨p, hh, hres, _⟩ <;> try simp at hres
      rw [← hres, hpay, loads_dumps d hwf] at hload
      simp at hload

theorem C9_witness :
    Json.loads (Json.dumps c9Doc) = some c9Doc ∧
    (workerStep c9H 5 7 [c9Job]).1 ≠ StepResult.rejectedJson c9Job :=
  ⟨C9_payload_roundtrip.1 c9Doc rfl,
   C9_payload_roundtrip.2.2 c9H 5 7 [c9Job] (workerStep c9H 5 7 [c9Job]).1
     (workerStep c9H 5 7 [c9Job]).2 c9Job c9Doc rfl rfl rfl⟩

theorem ids_preserved (f : Job → Job) (hf : ∀ x, (f x).id = x.id) (db : List Job) :
    ((db.map f).map Job.id) = db.map Job.id := by
  rw [List.map_map]
  apply List.map_congr_left
  intro x _
  simp [Function.comp, hf x]

theorem nodup_ids_map (f : Job → Job) (hf : ∀ x, (f x).id = x.id) {db : List Job}
    (hnd : (db.map Job.id).Nodup) : ((db.map f).map Job.id).Nodup := by
  rw [ids_preserved f hf]
  exact hnd

theorem enqueue_preserves {ty : String} {d : Json} {m : Nat} {a : Option Nat} {now : Nat}
    {s : QState} (hs : StrongInv s) (hm : 1 ≤ m) :
    StrongInv (enqueue_job ty d m a now s).2 := by
  obtain ⟨hnd, hmem⟩ := hs
  constructor
  · simp only [enqueue_job, List.map_append, List.map_cons, List.map_nil]
    rw [List.nodup_append]
    refine ⟨hnd, by simp, ?_⟩
    intro x hx hx2
    rw [List.mem_map] at hx
    obtain ⟨y, hy, hyx⟩ := hx
    rw [List.mem_singleton] at hx2
    have := (hmem y hy).1
    omega
  · intro j hj
    simp only [enqueue_job, List.mem_append, List.mem_singleton] at hj
    rcases hj with hj | hj
    · obtain ⟨h1, h2, h3⟩ := hmem j hj
      exact ⟨by simp [enqueue_job]; omega, h2, h3⟩
    · subst hj
      refine ⟨by simp [enqueue_job], hm, fun _ => by simpa using hm⟩

theorem retry_ok_shape {id now : Nat} {db db2 : List Job}
    (h : retry_dlq_job id now db = Except.ok db2) :
    db2 = db.map fun r => if r.id = id then
      { r with
          status := Status.pending
          attempts := 0
          available_at := now
          last_error := none
          updated_at := now } else r := by
  rw [retry_dlq_job] at h
  cases hf : db.find? (fun j => j.id = id) with
  | none =>
    rw [hf] at h
    simp at h
  | some job =>
    simp only [hf] at h
    by_cases hdlq : job.status = Status.dlq
    · rw [if_pos hdlq] at h
      injection h with h
      exact h.symm
    · rw [if_neg hdlq] at h
      simp at h

theorem retry_preserves {id now : Nat} {s : QState} (hs : StrongInv s) :
    StrongInv (applyOp (SysOp.retryDlq id) now s) := by
  obtain ⟨hnd, hmem⟩ := hs
  cases hres : retry_dlq_job id now s.jobs with
  | error e => simpa [applyOp, hres] using ⟨hnd, hmem⟩
  | ok db2 =>
    have hshape := retry_ok_shape hres
    simp only [applyOp, hres]
    constructor
    · rw [hshape]
      exact nodup_ids_map _ (fun x => by by_cases h : x.id = id <;> simp [h]) hnd
    · intro j hj
      rw [hshape] at hj
      obtain ⟨x, hx, hcase⟩ := mem_update_by_id hj
      obtain ⟨h1, h2, h3⟩ := hmem x hx
      rcases hcase with ⟨hxid, hxr⟩ | ⟨hxid, hxr⟩
      · subst hxr
        exact ⟨h1, h2, fun _ => by simpa using h2⟩
      · subst hxr
        exact ⟨h1, h2, h3⟩

theorem worker_preserves {H : Registry} {b now : Nat} {s : QState} (hs : StrongInv s) :
    StrongInv (applyOp (SysOp.worker H b) now s) := by
  obtain ⟨hnd, hmem⟩ := hs
  simp only [applyOp]
  rcases workerStep_cases H b now s.jobs (workerStep H b now s.jobs).1
    (workerStep H b now s.jobs).2 rfl with ⟨_, hdb2, _⟩ | ⟨j, hsel, hbr⟩
  · rw [hdb2]
    exact ⟨hnd, hmem⟩
  · obtain ⟨hjmem, hjpend, hjav, _⟩ := claimSelect_spec hsel
    obtain ⟨hjid, hjmax, hjinv⟩ := hmem j hjmem
    have hjatt : j.attempts < j.max_attempts := hjinv (Or.inl hjpend)
    have hids1 : ((claimUpdate j.id now s.jobs).map Job.id) = s.jobs.map Job.id := by
      rw [claimUpdate]
      exact ids_preserved _ (fun x => by by_cases h : x.id = j.id <;> simp [h]) _
    have hmem1 : ∀ x ∈ claimUpdate j.id now s.jobs,
        x.id < s.nextId ∧ 1 ≤ x.max_attempts ∧
        (x.id ≠ j.id → ((x.status = Status.pending ∨ x.status = Status.running) →
          x.attempts < x.max_attempts)) ∧
        (x.id = j.id → x = { j with status := Status.running, updated_at := now }) := by
      intro x hx
      obtain ⟨y, hy, hcase⟩ := claimUpdate_mem hx
      obtain ⟨g1, g2, g3⟩ := hmem y hy
      rcases hcase with ⟨hyid, hxy⟩ | ⟨hyid, hxy⟩
      · have hyj : y = j := eq_of_mem_nodup_id hnd hy hjmem hyid
        subst hxy
        subst hyj
        exact ⟨g1, g2, fun hne => absurd rfl hne, fun _ => rfl⟩
      · subst hxy
        exact ⟨g1, g2, fun _ => g3, fun hc => absurd hc hyid⟩
    rcases hbr with ⟨_, _, hdb2⟩ | ⟨_, _, _, hdb2⟩ |
      ⟨msg, p, handler, _, _, _, _, hdb2⟩ | ⟨p, handler, _, _, _, _, hdb2⟩
    · rw [hdb2]
      constructor
      · rw [move_job_to_dlq, ids_preserved _
          (fun x => by by_cases h : x.id = j.id <;> simp [h]) _, hids1]
        exact hnd
      · intro r hr
        rw [move_job_to_dlq] at hr
        obtain ⟨x, hx, hcase⟩ := mem_update_by_id hr
        obtain ⟨k1, k2, k3, _⟩ := hmem1 x hx
        rcases hcase with ⟨hxid, hxr⟩ | ⟨hxid, hxr⟩
        · subst hxr
          exact ⟨k1, k2, fun hc => by simp at hc⟩
        · subst hxr
          exact ⟨k1, k2, k3 hxid⟩
    · rw [hdb2]
      constructor
      · rw [move_job_to_dlq, ids_preserved _
          (fun x => by by_cases h : x.id = j.id <;> simp [h]) _, hids1]
        exact hnd
      · intro r hr
        rw [move_job_to_dlq] at hr
        obtain ⟨x, hx, hcase⟩ := mem_update_by_id hr
        obtain ⟨k1, k2, k3, _⟩ := hmem1 x hx
        rcases hcase with ⟨hxid, hxr⟩ | ⟨hxid, hxr⟩
        · subst hxr
          exact ⟨k1, k2, fun hc => by simp at hc⟩
        · subst hxr
          exact ⟨k1, k2, k3 hxid⟩
    · rw [hdb2]
      constructor
      · simp only [handle_job_failure]
        by_cases hb2 : j.max_attempts ≤ j.attempts + 1
        · rw [if_pos hb2, ids_preserved _
            (fun x => by by_cases h : x.id = j.id <;> simp [h]) _, hids1]
          exact hnd
        · rw [if_neg hb2, ids_preserved _
            (fun x => by by_cases h : x.id = j.id <;> simp [h]) _, hids1]
          exact hnd
      · intro r hr
        by_cases hrid : r.id = j.id
        · obtain ⟨x, hx, hxid, hcase⟩ := handle_job_failure_spec hr hrid
          obtain ⟨k1, k2, _, k4⟩ := hmem1 x hx
          rcases hcase with ⟨hb2, hrx⟩ | ⟨hb2, hrx⟩
          · subst hrx
            exact ⟨k1, k2, fun hc => by simp at hc⟩
          · subst hrx
            have hxmax : x.max_attempts = j.max_attempts := by rw [k4 hxid]
            refine ⟨k1, k2, fun _ => ?_⟩
            show j.attempts + 1 < x.max_attempts
            omega
        · simp only [handle_job_failure] at hr
          by_cases hb2 : j.max_attempts ≤ j.attempts + 1
          · rw [if_pos hb2] at hr
            obtain ⟨x, hx, hcase⟩ := mem_update_by_id hr
            obtain ⟨k1, k2, k3, _⟩ := hmem1 x hx
            rcases hcase with ⟨hxid, hxr⟩ | ⟨hxid, hxr⟩
            · rw [hxr] at hrid
              exact absurd hxid hrid
            · subst hxr
              exact ⟨k1, k2, k3 hxid⟩
          · rw [if_neg hb2] at hr
            obtain ⟨x, hx, hcase⟩ := mem_update_by_id hr
            obtain ⟨k1, k2, k3, _⟩ := hmem1 x hx
            rcases hcase with ⟨hxid, hxr⟩ | ⟨hxid, hxr⟩
            · rw [hxr] at hrid
              exact absurd hxid hrid
            · subst hxr
              exact ⟨k1, k2, k3 hxid⟩
    · rw [hdb2]
      constructor
      · rw [mark_job_completed, ids_preserved _
          (fun x => by by_cases h : x.id = j.id <;> simp [h]) _, hids1]
        exact hnd
      · intro r hr
        rw [mark_job_completed] at hr
        obtain ⟨x, hx, hcase⟩ := mem_update_by_id hr
        obtain ⟨k1, k2, k3, _⟩ := hmem1 x hx
        rcases hcase with ⟨hxid, hxr⟩ | ⟨hxid, hxr⟩
        · subst hxr
          exact ⟨k1, k2, fun hc => by simp at hc⟩
        · subst hxr
          exact ⟨k1, k2, k3 hxid⟩

theorem applyOps_strong (ops : List (SysOp × Nat)) :
    ∀ s : QState, StrongInv s → (∀ p ∈ ops, opPositive p.1 = true) →
      StrongInv (applyOps ops s) := by
  induction ops with
  | nil => intro s hs _; exact hs
  | cons p rest ih =>
    intro s hs hpos
    obtain ⟨op, t⟩ := p
    have hstep : StrongInv (applyOp op t s) := by
      cases op with
      | enqueue ty d m a =>
        have hm : 1 ≤ m := by
          have := hpos (SysOp.enqueue ty d m a, t) (by simp)
          simpa [opPositive] using this
        exact enqueue_preserves hs hm
      | retryDlq id => exact retry_preserves hs
      | worker H b => exact worker_preserves hs
    exact ih (applyOp op t s) hstep (fun q hq => hpos q (by simp [hq]))

/-- C2 (amended: restricted to enqueues with `max_attempts ≥ 1`): in every
state reachable from the fresh store through enqueue, DLQ reset and
worker iterations, `attempts < max_attempts` holds for every pending or
running job, and every operation preserves this. -/
theorem C2_invariant (ops : List (SysOp × Nat))
    (hpos : ∀ p ∈ ops, opPositive p.1 = true) :
    InvJobs (applyOps ops initState).jobs := by
  have hinit : StrongInv initState := by
    refine ⟨by simp [initState], ?_⟩
    intro j hj
    simp [initState] at hj
  have := applyOps_strong ops initState hinit hpos
  intro j hj hst
  exact (this.2 j hj).2.2 hst

theorem C2_counterexample :
    ∃ j ∈ (applyOps [(SysOp.enqueue "t" Json.null 0 none, 0)] initState).jobs,
      (j.status = Status.pending ∨ j.status = Status.running) ∧
      ¬ j.attempts < j.max_attempts := by
  refine ⟨c2BadJob, by decide, Or.inl rfl, by decide⟩

theorem C2_witness :
    (∀ p ∈ c2Ops, opPositive p.1 = true) ∧ InvJobs (applyOps c2Ops initState).jobs := by
  have hpos : ∀ p ∈ c2Ops, opPositive p.1 = true := by
    intro p hp
    simp only [c2Ops, List.mem_cons, List.mem_singleton] at hp
    rcases hp with hp | hp | hp
    · rw [hp]
      rfl
    · rw [hp]
      rfl
    · simp at hp
  exact ⟨hpos, C2_invariant c2Ops hpos⟩

/-- C5 (amended: for claimed jobs satisfying the C2 bound
`attempts < max_attempts`, i.e. any state reachable with positive
ceilings): a worker iteration puts the claimed job into `dlq` through the
exhausted-retries path (`handle_job_failure`) exactly when the row's
`attempts` equals `max_attempts` at the moment it enters `dlq`; routing
rejections preserve `attempts < max_attempts`, so they never exhibit
equality. -/
theorem C5_dlq_iff (H : Registry) (b now : Nat) (db : List Job)
    (hnd : (db.map Job.id).Nodup) (res : StepResult) (db2 : List Job) (j : Job)
    (hstep : workerStep H b now db = (res, db2)) (hclaim : res.claimed = some j)
    (hinv : j.attempts < j.max_attempts)
    (r : Job) (hr : r ∈ db2) (hid : r.id = j.id) (hdlq : r.status = Status.dlq) :
    (∃ e, res = StepResult.failed j e) ↔ r.attempts = r.max_attempts := by
  rcases workerStep_cases H b now db res db2 hstep with
    ⟨hres, _, _⟩ | ⟨j0, hsel, hbr⟩
  · rw [hres] at hclaim
    simp [StepResult.claimed] at hclaim
  · have hjmem := (claimSelect_spec hsel).1
    rcases hbr with ⟨hres, _, hdb2⟩ | ⟨hres, _, _, hdb2⟩ |
      ⟨msg, p, handler, hres, _, _, _, hdb2⟩ | ⟨p, handler, hres, _, _, _, hdb2⟩
    · rw [hres] at hclaim
      simp [StepResult.claimed] at hclaim
      subst hclaim
      rw [hdb2] at hr
      obtain ⟨x, hx, hxid, hrx⟩ := move_job_to_dlq_spec hr hid
      have hxj := claimUpdate_row_eq hnd hjmem hx hxid
      subst hrx
      refine iff_of_false ?_ ?_
      · rintro ⟨e, he⟩
        rw [hres] at he
        simp at he
      · rw [hxj]
        show ¬ j0.attempts = j0.max_attempts
        omega
    · rw [hres] at hclaim
      simp [StepResult.claimed] at hclaim
      subst hclaim
      rw [hdb2] at hr
      obtain ⟨x, hx, hxid, hrx⟩ := move_job_to_dlq_spec hr hid
      have hxj := claimUpdate_row_eq hnd hjmem hx hxid
      subst hrx
      refine iff_of_false ?_ ?_
      · rintro ⟨e, he⟩
        rw [hres] at he
        simp at he
      · rw [hxj]
        show ¬ j0.attempts = j0.max_attempts
        omega
    · rw [hres] at hclaim
      simp [StepResult.claimed] at hclaim
      subst hclaim
      rw [hdb2] at hr
      obtain ⟨x, hx, hxid, hcase⟩ := handle_job_failure_spec hr hid
      have hxj := claimUpdate_row_eq hnd hjmem hx hxid
      rcases hcase with ⟨hb2, hrx⟩ | ⟨hb2, hrx⟩
      · subst hrx
        refine iff_of_true ⟨msg, hres⟩ ?_
        have hxmax : x.max_attempts = j0.max_attempts := by rw [hxj]
        show j0.attempts + 1 = x.max_attempts
        omega
      · subst hrx
        rw [show ({ x with
            status := Status.pending
            attempts := j0.attempts + 1
            available_at := now + b * 2 ^ (j0.attempts + 1 - 1)
            last_error := some msg
            updated_at := now } : Job).status = Status.pending from rfl] at hdlq
        simp at hdlq
    · rw [hres] at hclaim
      simp [StepResult.claimed] at hclaim
      subst hclaim
      rw [hdb2] at hr
      obtain ⟨x, hx, hxid, hrx⟩ := mark_job_completed_spec hr hid
      subst hrx
      simp at hdlq

theorem C5_witness :
    (∃ e, (workerStep c5H 5 9 [c5Job]).1 = StepResult.failed c5Job e) ↔
      c5Row.attempts = c5Row.max_attempts := by
  have h := C5_dlq_iff c5H 5 9 [c5Job] (by decide) (workerStep c5H 5 9 [c5Job]).1
    (workerStep c5H 5 9 [c5Job]).2 c5Job rfl rfl (by decide) c5Row (by decide)
    (by decide) (by decide)
  exact h

/-- Refutation of C5 as stated: starting from the fresh store, enqueue with
`max_attempts = 0` (accepted by `enqueue_job`), then run one worker
iteration with a failing handler.  The job enters `dlq` through the
exhausted-retries path (`StepResult.failed`), yet at that moment
`attempts = 1 ≠ 0 = max_attempts`. -/
theorem C5_counterexample :
    (workerStep c5xH 5 1
        (applyOps [(SysOp.enqueue "t" Json.null 0 none, 0)] initState).jobs).1 =
      StepResult.failed c2BadJob "E" ∧
    ∃ r ∈ (workerStep c5xH 5 1
        (applyOps [(SysOp.enqueue "t" Json.null 0 none, 0)] initState).jobs).2,
      r.status = Status.dlq ∧ r.attempts = 1 ∧ r.max_attempts = 0 := by
  constructor
  · rfl
  · refine ⟨{ c2BadJob with
        status := Status.dlq
        attempts := 1
        last_error := some "E"
        updated_at := 1 }, by decide, by decide⟩

/-- C8 is violated by the source: with one ready pending job and two
concurrent claim calls whose SELECTs both run before either UPDATE, both
calls return the same job — the read-then-update sequence of
`get_next_pending_job` is not mutually exclusive. -/
theorem C8_double_claim_race :
    (interleavedDoubleClaim 10 [c8Job]).1 = some c8Job ∧
    (interleavedDoubleClaim 10 [c8Job]).2.1 = some c8Job := by
  constructor
  · rfl
  · rfl
